import Mathlib

/-!
# postgresql_schema_view: schema extraction and diagram mapping

A shallow embedding of `main.go`:

* `schemaValidRegex` / `MatchString`: the allow-list check of the schema name;
* `fetchSchemaConnected`: the two catalog queries, the grouping of column rows
  into `mtables`, the enumeration of `mtables` into `schema.tables` and
  `index_map`, and the resolution of foreign-key rows into relations;
* `schemaToGraph`: the node loop and the edge loop over a small model of the
  graph library's node and edge tables, the call of `RenderFilename`, and the
  `log.Fatal` exits on the errors the library reports.

Go strings are modelled as Lean `String`s (sequences of runes, which is how
`regexp` reads them), Go `int`s as `Int`, Go slices as `List`s, Go maps as
association lists with distinct keys. The order in which `range` visits a Go
map is not fixed by the language; every function that ranges over a map takes
that order as an explicit argument.
-/

namespace SchemaView

/-! ## Outcomes of a run -/

/-- How a Go function call ends: it returns a value, panics with a message, or
terminates the process through `os.Exit`. -/
inductive Outcome (α : Type) where
  | ok (value : α)
  | panic (msg : String)
  | exit (code : Nat)
  deriving Repr, DecidableEq

/-- The value returned, when the call returns. -/
def Outcome.value? {α : Type} : Outcome α → Option α
  | .ok v => some v
  | .panic _ => none
  | .exit _ => none

/-! ## Data model (`main.go` lines 75-96) -/

structure columnData where
  name : String
  desc : String
  deriving Repr, DecidableEq

structure table where
  name : String
  columns : List columnData
  deriving Repr, DecidableEq

structure relation where
  name : String
  fromTable : Int
  fromColumn : Int
  toTable : Int
  toColumn : Int
  deriving Repr, DecidableEq

structure schema where
  tables : List table
  relations : List relation
  deriving Repr, DecidableEq

/-- Slice indexing `xs[i]` with a Go `int` index: `none` stands for the
run-time panic on an index out of range. -/
def goIndex {α : Type} (xs : List α) (i : Int) : Option α :=
  if i < 0 then none else xs.get? i.toNat

/-! ## Go maps with string keys -/

/-- A Go `map[string]α`: an association list, keys pairwise distinct. The
position of a key in the list has no meaning for the program. -/
abbrev GoMap (α : Type) := List (String × α)

/-- The two-result lookup `v, ok := m[k]`. -/
def mapGet {α : Type} : GoMap α → String → Option α
  | [], _ => none
  | (k', v) :: rest, k => if k' = k then some v else mapGet rest k

/-- The assignment `m[k] = v`. -/
def mapSet {α : Type} : GoMap α → String → α → GoMap α
  | [], k, v => [(k, v)]
  | (k', v') :: rest, k, v =>
    if k' = k then (k, v) :: rest else (k', v') :: mapSet rest k v

/-- The keys held by the map. -/
def mapKeys {α : Type} (m : GoMap α) : List String := m.map Prod.fst

/-- The values `range m` yields when it visits the keys in the order `order`. -/
def mapRange {α : Type} (m : GoMap α) (order : List String) : List α :=
  order.filterMap (mapGet m)

/-- An order in which `range` may visit the map: every key exactly once. -/
def IsRangeOrder {α : Type} (m : GoMap α) (order : List String) : Prop :=
  order.Perm (mapKeys m)

/-! ## The allow-list check (`main.go` line 111) -/

/-- The Perl class `\w` of Go's regexp syntax: `[0-9A-Za-z_]`. -/
def perlWord (c : Char) : Bool :=
  (48 ≤ c.toNat && c.toNat ≤ 57) || (65 ≤ c.toNat && c.toNat ≤ 90)
    || c.toNat == 95 || (97 ≤ c.toNat && c.toNat ≤ 122)

/-- The Perl class `\d` of Go's regexp syntax: `[0-9]`. -/
def perlDigit (c : Char) : Bool :=
  48 ≤ c.toNat && c.toNat ≤ 57

/-- The bracket expression `[\w\d_]`. -/
def schemaClass (c : Char) : Bool :=
  perlWord c || perlDigit c || c == '_'

/-- The tail `[\w\d_]+$` of the pattern run on the rest of the text: one
character of the class, then either the end of the text or one more round. -/
def classPlusEnd : List Char → Bool
  | [] => false
  | c :: rest => schemaClass c && (rest.isEmpty || classPlusEnd rest)

/-- The pattern `^[\w\d_]+$` tried at offset `i` of the text: `^` holds at the
beginning of the text only. -/
def schemaValidRegexAt (text : List Char) (i : Nat) : Bool :=
  i == 0 && classPlusEnd (text.drop i)

/-- The call `schemaValidRegex.MatchString(s)`: an unanchored search, the
pattern is tried at every offset of the text. -/
def schemaValidRegex (s : String) : Bool :=
  (List.range (s.data.length + 1)).any (schemaValidRegexAt s.data)

/-! ## Catalog rows and the connection -/

/-- A column row after `rows.Scan(&table, &column, &udtName)`. -/
structure ColumnRow where
  table : String
  column : String
  udtName : String
  deriving Repr, DecidableEq

/-- A foreign-key row after `rows.Scan` into its five variables. -/
structure FkRow where
  constraintName : String
  fromTable : String
  fromColumn : String
  toTable : String
  toColumn : String
  deriving Repr, DecidableEq

/-- A row as the connection delivers it: its values, `none` for SQL NULL. -/
abbrev RawRow := List (Option String)

/-- The connection: the reply to a query text is an error or the rows that
`rows.Next()` steps through. -/
structure Conn where
  query : String → Except String (List RawRow)

/-- Decoding of a raw row by `rows.Scan` into three string variables. -/
def scanColumnRow : RawRow → Option ColumnRow
  | [some t, some c, some u] => some ⟨t, c, u⟩
  | _ => none

/-- Decoding of a raw row by `rows.Scan` into five string variables. -/
def scanFkRow : RawRow → Option FkRow
  | [some n, some ft, some fc, some tt, some tc] => some ⟨n, ft, fc, tt, tc⟩
  | _ => none

/-- The text of the column query for a schema name (line 122). -/
def columnQuery (schemaName : String) : String :=
  "SELECT table_name,column_name,udt_name FROM information_schema.columns WHERE table_schema = '"
    ++ schemaName ++ "' ORDER BY ordinal_position"

/-- The fixed part of the foreign-key query (lines 166-176). -/
def fkQueryHead : String :=
  "SELECT\n    tc.constraint_name, tc.table_name, kcu.column_name, \n    ccu.table_name AS foreign_table_name,\n    ccu.column_name AS foreign_column_name \nFROM \n    information_schema.table_constraints AS tc \n    JOIN information_schema.key_column_usage AS kcu\n      ON tc.constraint_name = kcu.constraint_name\n    JOIN information_schema.constraint_column_usage AS ccu\n      ON ccu.constraint_name = tc.constraint_name\nWHERE constraint_type = 'FOREIGN KEY'"

/-- The text of the foreign-key query for a schema name (line 178). -/
def fkQuery (schemaName : String) : String :=
  fkQueryHead ++ " AND tc.table_schema = '" ++ schemaName ++ "'"

/-! ## Grouping of the column rows (lines 120-140) -/

/-- One round of the column loop: `entry := mtables[table]` (the zero table
when the key is new), set its name, append the column, store it back. -/
def groupStep (mtables : GoMap table) (row : ColumnRow) : GoMap table :=
  let entry : table := (mapGet mtables row.table).getD ⟨"", []⟩
  let entry : table := { entry with name := row.table }
  let entry : table :=
    { entry with columns := entry.columns ++ [⟨row.column, row.udtName⟩] }
  mapSet mtables row.table entry

/-- The column loop over all rows, from the empty map. -/
def groupRows (rows : List ColumnRow) : GoMap table :=
  rows.foldl groupStep []

/-! ## The index map (lines 142-162) -/

structure table_col_index where
  table : Int
  columns : GoMap Int
  deriving Repr, DecidableEq

/-- The inner loop `for i, col := range table.columns { columns[col.name] = i }`,
started at index `i` with the map `columns`. -/
def columnIndexFrom : List columnData → Int → GoMap Int → GoMap Int
  | [], _, columns => columns
  | col :: rest, i, columns => columnIndexFrom rest (i + 1) (mapSet columns col.name i)

/-- The column lookup of one table. -/
def columnIndex (cols : List columnData) : GoMap Int :=
  columnIndexFrom cols 0 []

/-- The variables the loop over `mtables` updates. -/
structure IndexState where
  tables : List table
  index_map : GoMap table_col_index
  table_index : Int
  deriving Repr, DecidableEq

/-- One round of `for _, table := range mtables`. -/
def indexStep (st : IndexState) (t : table) : IndexState :=
  { tables := st.tables ++ [t]
    index_map := mapSet st.index_map t.name ⟨st.table_index, columnIndex t.columns⟩
    table_index := st.table_index + 1 }

/-- The loop over `mtables`, visiting its keys in the order `order`. -/
def buildIndex (mtables : GoMap table) (order : List String) : IndexState :=
  (mapRange mtables order).foldl indexStep ⟨[], [], 0⟩

/-! ## Resolution of the foreign-key rows (lines 183-226) -/

/-- The body of the foreign-key loop after the scan: the relation of one row,
or the message of the panic. -/
def resolveRelation (index_map : GoMap table_col_index) (row : FkRow) :
    Except String relation :=
  match mapGet index_map row.fromTable with
  | none => .error ("can't find table name: " ++ row.fromTable)
  | some fromIdx =>
    match mapGet fromIdx.columns row.fromColumn with
    | none => .error ("can't find table name: " ++ row.fromTable)
    | some fromColumnIdx =>
      match mapGet index_map row.toTable with
      | none => .error ("can't find table name: " ++ row.toTable)
      | some toIdx =>
        match mapGet toIdx.columns row.toColumn with
        | none => .error ("can't find table name: " ++ row.toTable)
        | some toColumnIdx =>
          .ok { name := row.constraintName
                fromTable := fromIdx.table
                fromColumn := fromColumnIdx
                toTable := toIdx.table
                toColumn := toColumnIdx }

/-- The foreign-key loop over decoded rows: relations are appended in row
order, the first row that does not resolve panics. -/
def resolveRelations (index_map : GoMap table_col_index) :
    List FkRow → List relation → Outcome (List relation)
  | [], acc => .ok acc
  | row :: rest, acc =>
    match resolveRelation index_map row with
    | .error msg => .panic msg
    | .ok r => resolveRelations index_map rest (acc ++ [r])

/-- The model-building part of `fetchSchemaConnected` on decoded rows: the
column loop, the loop over `mtables` (visited in the order `order`) and the
foreign-key loop. -/
def buildSchema (order : List String) (columnRows : List ColumnRow)
    (fkRows : List FkRow) : Outcome schema :=
  let st := buildIndex (groupRows columnRows) order
  match resolveRelations st.index_map fkRows [] with
  | .ok rels => .ok ⟨st.tables, rels⟩
  | .panic msg => .panic msg
  | .exit code => .exit code

/-! ## `fetchSchemaConnected` with its connection (lines 114-230) -/

/-- The column loop on raw rows: a row that does not scan panics. -/
def scanColumnRows : List RawRow → GoMap table → Outcome (GoMap table)
  | [], mtables => .ok mtables
  | raw :: rest, mtables =>
    match scanColumnRow raw with
    | none => .panic "failed scanning rows"
    | some row => scanColumnRows rest (groupStep mtables row)

/-- The foreign-key loop on raw rows: each row is scanned, then resolved. -/
def scanFkRows (index_map : GoMap table_col_index) :
    List RawRow → List relation → Outcome (List relation)
  | [], acc => .ok acc
  | raw :: rest, acc =>
    match scanFkRow raw with
    | none => .panic "failed scanning rows"
    | some row =>
      match resolveRelation index_map row with
      | .error msg => .panic msg
      | .ok r => scanFkRows index_map rest (acc ++ [r])

/-- What a call of `fetchSchemaConnected` does: the query texts sent on the
connection, in order, and how the call ends. -/
structure Run where
  queries : List String
  outcome : Outcome schema

/-- The function `fetchSchemaConnected`; `order` is the order in which
`range mtables` visits the keys. -/
def fetchSchemaConnected (conn : Conn) (order : List String) (schemaName : String) : Run :=
  if !schemaValidRegex schemaName then
    ⟨[], .panic ("'" ++ schemaName ++ "' is not a valid schema name")⟩
  else
    match conn.query (columnQuery schemaName) with
    | .error _ => ⟨[columnQuery schemaName], .exit 1⟩
    | .ok rawColumns =>
      match scanColumnRows rawColumns [] with
      | .panic msg => ⟨[columnQuery schemaName], .panic msg⟩
      | .exit code => ⟨[columnQuery schemaName], .exit code⟩
      | .ok mtables =>
        let st := buildIndex mtables order
        match conn.query (fkQuery schemaName) with
        | .error _ => ⟨[columnQuery schemaName, fkQuery schemaName], .exit 1⟩
        | .ok rawFks =>
          match scanFkRows st.index_map rawFks [] with
          | .panic msg => ⟨[columnQuery schemaName, fkQuery schemaName], .panic msg⟩
          | .exit code => ⟨[columnQuery schemaName, fkQuery schemaName], .exit code⟩
          | .ok rels => ⟨[columnQuery schemaName, fkQuery schemaName], .ok ⟨st.tables, rels⟩⟩

/-! ## The graph library

`schemaToGraph` builds its graph through go-graphviz, a binding of Graphviz's
`cgraph`; the library is not part of this repository. The model keeps what the
program relies on. A graph is a table of nodes and a table of edges.
`CreateNode(name)` is `agnode(g, name, 1)`: it returns the node of that name,
creating it when there is none. `CreateEdge(name, tail, head)` is
`agedge(g, tail, head, name, 1)`: an edge is identified by its tail, its head
and its name (its key), the call returns the edge with this tail, head and
name, creating it when there is none. The setters store string attributes on
the object they are called on. The graph of `g.Graph()` is directed and not
strict, so an edge from a node to itself is allowed, and so are several edges
between two nodes, which differ in their names.

Whether a call of the library reports an error (a failed allocation, a label
or a port the renderer does not accept, an output path that cannot be written)
is decided outside the program: the errors are taken as given, in `Graphviz`. -/

structure Node where
  name : String
  attrs : GoMap String
  deriving Repr, DecidableEq

/-- An edge: tail and head are positions in the node table of the graph. -/
structure Edge where
  name : String
  tail : Nat
  head : Nat
  attrs : GoMap String
  deriving Repr, DecidableEq

structure Graph where
  nodes : List Node
  edges : List Edge
  deriving Repr, DecidableEq

/-- Replace the element at position `i` by its image under `f`. -/
def modifyAt {α : Type} (f : α → α) : List α → Nat → List α
  | [], _ => []
  | x :: xs, 0 => f x :: xs
  | x :: xs, i + 1 => x :: modifyAt f xs i

/-- The method `graph.CreateNode(name)`: the graph afterwards and the node
returned (its position in the node table). -/
def Graph.CreateNode (g : Graph) (name : String) : Graph × Nat :=
  let i := g.nodes.findIdx (fun n => n.name == name)
  if i < g.nodes.length then (g, i)
  else ({ g with nodes := g.nodes ++ [⟨name, []⟩] }, g.nodes.length)

/-- The method `graph.CreateEdge(name, tail, head)`: the graph afterwards and
the edge returned (its position in the edge table). -/
def Graph.CreateEdge (g : Graph) (name : String) (tail head : Nat) : Graph × Nat :=
  let i := g.edges.findIdx (fun e => e.tail == tail && e.head == head && e.name == name)
  if i < g.edges.length then (g, i)
  else ({ g with edges := g.edges ++ [⟨name, tail, head, []⟩] }, g.edges.length)

/-- A setter called on the node `n`. -/
def Graph.setNodeAttr (g : Graph) (n : Nat) (key value : String) : Graph :=
  { g with nodes := modifyAt (fun nd => { nd with attrs := mapSet nd.attrs key value }) g.nodes n }

/-- A setter called on the edge `e`. -/
def Graph.setEdgeAttr (g : Graph) (e : Nat) (key value : String) : Graph :=
  { g with edges := modifyAt (fun ed => { ed with attrs := mapSet ed.attrs key value }) g.edges e }

/-! ## `schemaToGraph` (lines 233-278) -/

/-- The verb `%d` of `fmt.Sprintf` on an `int`. -/
def fmtInt (i : Int) : String := toString i

/-- The port name `fmt.Sprintf("p%d", i)`. -/
def portName (i : Int) : String := "p" ++ fmtInt i

/-- The first `Sprintf` of the label: the table opening and the header row. -/
def labelHead (name : String) : String :=
  "<TABLE BORDER=\"0\" CELLBORDER=\"1\" CELLSPACING=\"0\"><TR><TD BGCOLOR=\"gray\">"
    ++ name ++ "</TD></TR>"

/-- The row of the column at index `i` (line 257). -/
def labelRow (i : Int) (column : columnData) : String :=
  "<TR><TD PORT=\"" ++ portName i ++ "\">" ++ column.name ++ " <i>" ++ column.desc
    ++ "</i></TD></TR>"

/-- The loop `for i, column := range table.columns` appending to `html`. -/
def labelRowsFrom : List columnData → Int → String → String
  | [], _, html => html
  | column :: rest, i, html => labelRowsFrom rest (i + 1) (html ++ labelRow i column)

/-- The label text of a table (lines 255-259). -/
def tableLabel (t : table) : String :=
  labelRowsFrom t.columns 0 (labelHead t.name) ++ "</TABLE>"

/-- The variables of the node loop: the graph and the slice `nodes`. -/
structure NodeState where
  graph : Graph
  nodes : List Nat
  deriving Repr, DecidableEq

/-- One round of `for _, table := range schema.tables` after `CreateNode`
reported no error. -/
def nodeStep (st : NodeState) (t : table) : NodeState :=
  let created := st.graph.CreateNode t.name
  let n := created.2
  let g := created.1.setNodeAttr n "shape" "none"
  let g := g.setNodeAttr n "margin" "0"
  let g := g.setNodeAttr n "label" (tableLabel t)
  ⟨g, st.nodes ++ [n]⟩

/-- The message of Go's run-time panic for `xs[i]` out of range. -/
def indexPanic (i : Int) (len : Nat) : String :=
  "runtime error: index out of range [" ++ fmtInt i ++ "]"
    ++ (if i < 0 then "" else " with length " ++ toString len)

/-- One round of `for _, rel := range schema.relations` when `CreateEdge`
reports no error: the graph afterwards and the edge `e` of this round. -/
def edgeStep (nodes : List Nat) (g : Graph) (rel : relation) : Outcome (Graph × Nat) :=
  match goIndex nodes rel.fromTable with
  | none => .panic (indexPanic rel.fromTable nodes.length)
  | some tail =>
    match goIndex nodes rel.toTable with
    | none => .panic (indexPanic rel.toTable nodes.length)
    | some head =>
      let created := g.CreateEdge "e" tail head
      let e := created.2
      let g := created.1.setEdgeAttr e "label" rel.name
      let g := g.setEdgeAttr e "tailport" (portName rel.fromColumn)
      let g := g.setEdgeAttr e "headport" (portName rel.toColumn)
      .ok (g, e)

/-- The edge loop when `CreateEdge` reports no error; `edges` collects the
edge `e` of every round. -/
def edgeLoop (nodes : List Nat) : List relation → Graph → List Nat → Outcome (Graph × List Nat)
  | [], g, edges => .ok (g, edges)
  | rel :: rest, g, edges =>
    match edgeStep nodes g rel with
    | .ok (g', e) => edgeLoop nodes rest g' (edges ++ [e])
    | .panic msg => .panic msg
    | .exit code => .exit code

/-- The node loop from the empty graph when `CreateNode` reports no error. -/
def nodeLoop (tables : List table) : NodeState :=
  tables.foldl nodeStep ⟨⟨[], []⟩, []⟩

/-- What `schemaToGraph` has built when it calls `RenderFilename`: the graph
handed to the renderer, the slice `nodes` (the node of each table, in table
order) and the edge `e` of each relation, in relation order. -/
structure GraphRun where
  graph : Graph
  nodes : List Nat
  edges : List Nat
  deriving Repr, DecidableEq

/-- The node loop and the edge loop of `schemaToGraph` (lines 247-273) when no
call of the library reports an error: the graph that is handed to
`RenderFilename`, or the panic of an index out of range. -/
def graphBuilt (s : schema) : Outcome GraphRun :=
  let st := nodeLoop s.tables
  match edgeLoop st.nodes s.relations st.graph [] with
  | .ok (g, edges) => .ok ⟨g, st.nodes, edges⟩
  | .panic msg => .panic msg
  | .exit code => .exit code

/-- The errors go-graphviz reports to `schemaToGraph`, `none` for a nil error:
of `g.Graph()` (line 236), of `graph.CreateNode(name)` on the graph built so
far (line 249), of `graph.CreateEdge(name, tail, head)` on the graph built so
far (line 266), of `g.RenderFilename(graph, graphviz.SVG, path)` (line 275) and
of `graph.Close()` in the deferred function (line 241). -/
structure Graphviz where
  graphErr : Option String
  createNodeErr : Graph → String → Option String
  createEdgeErr : Graph → String → Nat → Nat → Option String
  renderErr : Graph → String → Option String
  closeErr : Option String

/-- A library in which only `RenderFilename` may report an error. -/
def Graphviz.rendering (renderErr : Graph → String → Option String) : Graphviz :=
  ⟨none, fun _ _ => none, fun _ _ _ _ => none, renderErr, none⟩

/-- A library that reports no error at all. -/
def Graphviz.quiet : Graphviz := Graphviz.rendering (fun _ _ => none)

/-- The loop `for _, table := range schema.tables` (lines 248-262): an error
of `CreateNode` ends the process through `log.Fatal`. -/
def createNodes (gv : Graphviz) : List table → NodeState → Outcome NodeState
  | [], st => .ok st
  | t :: rest, st =>
    match gv.createNodeErr st.graph t.name with
    | some _ => .exit 1
    | none => createNodes gv rest (nodeStep st t)

/-- The loop `for _, rel := range schema.relations` (lines 264-273): the two
index expressions are evaluated first and may panic, then an error of
`CreateEdge` ends the process through `log.Fatal`. -/
def createEdges (gv : Graphviz) (nodes : List Nat) :
    List relation → Graph → List Nat → Outcome (Graph × List Nat)
  | [], g, edges => .ok (g, edges)
  | rel :: rest, g, edges =>
    match goIndex nodes rel.fromTable with
    | none => .panic (indexPanic rel.fromTable nodes.length)
    | some tail =>
      match goIndex nodes rel.toTable with
      | none => .panic (indexPanic rel.toTable nodes.length)
      | some head =>
        match gv.createEdgeErr g "e" tail head with
        | some _ => .exit 1
        | none =>
          match edgeStep nodes g rel with
          | .ok (g', e) => createEdges gv nodes rest g' (edges ++ [e])
          | .panic msg => .panic msg
          | .exit code => .exit code

/-- The deferred function of lines 240-245, run when `schemaToGraph` returns
or panics (not after `log.Fatal`, which ends the process at once): an error of
`graph.Close()` ends the process through `log.Fatal`. -/
def deferredClose (gv : Graphviz) (out : Outcome GraphRun) : Outcome GraphRun :=
  match gv.closeErr with
  | some _ => .exit 1
  | none => out

/-- The function `schemaToGraph(schema, pathSVG)`. It returns nothing; the
value of the outcome records what it rendered. Every `log.Fatal` is the exit
with status 1. The graph is rendered as `graphviz.SVG` to `pathSVG` (the
comment of line 232 speaks of PNG, the call asks for SVG). -/
def schemaToGraph (gv : Graphviz) (s : schema) (pathSVG : String) : Outcome GraphRun :=
  match gv.graphErr with
  | some _ => .exit 1
  | none =>
    match createNodes gv s.tables ⟨⟨[], []⟩, []⟩ with
    | .exit code => .exit code
    | .panic msg => deferredClose gv (.panic msg)
    | .ok st =>
      match createEdges gv st.nodes s.relations st.graph [] with
      | .exit code => .exit code
      | .panic msg => deferredClose gv (.panic msg)
      | .ok (g, edges) =>
        match gv.renderErr g pathSVG with
        | some _ => .exit 1
        | none => deferredClose gv (.ok ⟨g, st.nodes, edges⟩)

/-- The value of an attribute of an object, the empty string when it was never
set. -/
def attrOf (attrs : GoMap String) (key : String) : String :=
  (mapGet attrs key).getD ""

/-! ## Vocabulary of the specification -/

/-- An ASCII letter, an ASCII digit or an underscore. -/
def isIdentChar (c : Char) : Prop :=
  ('a' ≤ c ∧ c ≤ 'z') ∨ ('A' ≤ c ∧ c ≤ 'Z') ∨ ('0' ≤ c ∧ c ≤ '9') ∨ c = '_'

instance : DecidablePred isIdentChar := fun c => by
  unfold isIdentChar
  infer_instance

/-- The code points of white space (those of Go's `unicode.IsSpace`). -/
def spaceCodes : List Nat :=
  [9, 10, 11, 12, 13, 32, 133, 160, 5760, 8192, 8193, 8194, 8195, 8196, 8197, 8198,
   8199, 8200, 8201, 8202, 8232, 8233, 8239, 8287, 12288]

/-- A single quote, a double quote, a semicolon or a white-space character. -/
def isQuoteSemicolonSpace (c : Char) : Prop :=
  c.toNat = 39 ∨ c.toNat = 34 ∨ c = ';' ∨ c.toNat ∈ spaceCodes

instance : DecidablePred isQuoteSemicolonSpace := fun c => by
  unfold isQuoteSemicolonSpace
  infer_instance

/-- The columns the rows give to the table `t`, in row order. -/
def columnsOf (t : String) (rows : List ColumnRow) : List columnData :=
  (rows.filter (fun r => r.table = t)).map (fun r => ⟨r.column, r.udtName⟩)

/-- Some column row names the table `t`. -/
def hasTable (rows : List ColumnRow) (t : String) : Prop :=
  ∃ r ∈ rows, r.table = t

/-- Some column row gives the table `t` a column named `c`. -/
def hasColumn (rows : List ColumnRow) (t c : String) : Prop :=
  ∃ r ∈ rows, r.table = t ∧ r.column = c

instance (rows : List ColumnRow) (t : String) : Decidable (hasTable rows t) := by
  unfold hasTable
  infer_instance

instance (rows : List ColumnRow) (t c : String) : Decidable (hasColumn rows t c) := by
  unfold hasColumn
  infer_instance

/-- The foreign-key row names only tables and columns present in the column
rows: each table name occurs, each column name is a column of its table. -/
def namesPresent (rows : List ColumnRow) (fk : FkRow) : Prop :=
  hasTable rows fk.fromTable ∧ hasColumn rows fk.fromTable fk.fromColumn
    ∧ hasTable rows fk.toTable ∧ hasColumn rows fk.toTable fk.toColumn

instance (rows : List ColumnRow) (fk : FkRow) : Decidable (namesPresent rows fk) := by
  unfold namesPresent
  infer_instance

/-- The name of `tables[ti]`. -/
def tableNameAt (tables : List table) (ti : Int) : Option String :=
  (goIndex tables ti).map table.name

/-- The name of `tables[ti].columns[ci]`. -/
def columnNameAt (tables : List table) (ti ci : Int) : Option String :=
  (goIndex tables ti).bind (fun t => (goIndex t.columns ci).map columnData.name)

/-- The indices of the relation lead back, through the tables, to the names of
the foreign-key row. -/
def resolvesTo (tables : List table) (fk : FkRow) (r : relation) : Prop :=
  r.name = fk.constraintName
    ∧ tableNameAt tables r.fromTable = some fk.fromTable
    ∧ columnNameAt tables r.fromTable r.fromColumn = some fk.fromColumn
    ∧ tableNameAt tables r.toTable = some fk.toTable
    ∧ columnNameAt tables r.toTable r.toColumn = some fk.toColumn

instance (tables : List table) (fk : FkRow) (r : relation) :
    Decidable (resolvesTo tables fk r) := by
  unfold resolvesTo
  infer_instance

/-- The number of columns of `tables[ti]`, `0` when there is no such table. -/
def columnCountAt (tables : List table) (ti : Int) : Nat :=
  ((goIndex tables ti).map (fun t => t.columns.length)).getD 0

/-- The four indices of the relation are in range. -/
def relationInRange (tables : List table) (r : relation) : Prop :=
  0 ≤ r.fromTable ∧ r.fromTable < tables.length
    ∧ 0 ≤ r.fromColumn ∧ r.fromColumn < columnCountAt tables r.fromTable
    ∧ 0 ≤ r.toTable ∧ r.toTable < tables.length
    ∧ 0 ≤ r.toColumn ∧ r.toColumn < columnCountAt tables r.toTable

instance (tables : List table) (r : relation) : Decidable (relationInRange tables r) := by
  unfold relationInRange
  infer_instance

/-- The invariants of a Schema: table names pairwise distinct, every relation
index in range. -/
def schemaInvariant (s : schema) : Prop :=
  (s.tables.map table.name).Nodup ∧ ∀ r ∈ s.relations, relationInRange s.tables r

instance (s : schema) : Decidable (schemaInvariant s) := by
  unfold schemaInvariant
  infer_instance

/-- The raw row that scans to the column row. -/
def ColumnRow.raw (r : ColumnRow) : RawRow :=
  [some r.table, some r.column, some r.udtName]

/-- The raw row that scans to the foreign-key row. -/
def FkRow.raw (fk : FkRow) : RawRow :=
  [some fk.constraintName, some fk.fromTable, some fk.fromColumn, some fk.toTable,
    some fk.toColumn]

/-- The name `a` comes before the name `b` in the list (first occurrences). -/
def precedes (names : List String) (a b : String) : Prop :=
  names.indexOf a < names.indexOf b

instance (names : List String) (a b : String) : Decidable (precedes names a b) := by
  unfold precedes
  infer_instance

/-- First-seen-row order of the tables: among the table names of the column
rows, `a` precedes `b` in the table sequence exactly when the first row naming
`a` comes before the first row naming `b`. -/
def tablesInFirstSeenOrder (rows : List ColumnRow) (s : schema) : Prop :=
  ∀ a ∈ rows.map ColumnRow.table, ∀ b ∈ rows.map ColumnRow.table,
    (precedes (s.tables.map table.name) a b ↔ precedes (rows.map ColumnRow.table) a b)

instance (rows : List ColumnRow) (s : schema) : Decidable (tablesInFirstSeenOrder rows s) := by
  unfold tablesInFirstSeenOrder
  infer_instance

/-- A relation read back through the table sequence: the tables its table
indices select, and its column indices. -/
structure NamedRelation where
  name : String
  fromTable : Option table
  fromColumn : Int
  toTable : Option table
  toColumn : Int
  deriving Repr, DecidableEq

/-- The relation with its table indices replaced by the tables they select. -/
def namedRelation (tables : List table) (r : relation) : NamedRelation :=
  ⟨r.name, goIndex tables r.fromTable, r.fromColumn, goIndex tables r.toTable, r.toColumn⟩

/-- The relations of a schema, read back through its tables. -/
def namedRelations (s : schema) : List NamedRelation :=
  s.relations.map (namedRelation s.tables)

/-- The outcome with a function applied to the value returned. -/
def Outcome.map {α β : Type} (f : α → β) : Outcome α → Outcome β
  | .ok v => .ok (f v)
  | .panic msg => .panic msg
  | .exit code => .exit code

instance {α : Type} (m : GoMap α) (order : List String) : Decidable (IsRangeOrder m order) := by
  unfold IsRangeOrder
  infer_instance

/-- The column rows of the example of the specification. -/
def exampleColumnRows : List ColumnRow :=
  [⟨"users", "id", "int4"⟩, ⟨"users", "name", "text"⟩, ⟨"orders", "id", "int4"⟩,
    ⟨"orders", "user_id", "int4"⟩]

/-- The foreign-key row of the example of the specification. -/
def exampleFkRows : List FkRow :=
  [⟨"fk_orders_user", "orders", "user_id", "users", "id"⟩]

/-- The table `users` of the example. -/
def usersTable : table := ⟨"users", [⟨"id", "int4"⟩, ⟨"name", "text"⟩]⟩

/-- The table `orders` of the example. -/
def ordersTable : table := ⟨"orders", [⟨"id", "int4"⟩, ⟨"user_id", "int4"⟩]⟩

/-- Column rows of two tables, `orders` holding two references to `addresses`. -/
def twoKeyColumnRows : List ColumnRow :=
  [⟨"addresses", "id", "int4"⟩, ⟨"orders", "id", "int4"⟩, ⟨"orders", "billing_id", "int4"⟩,
    ⟨"orders", "shipping_id", "int4"⟩]

/-- Two foreign keys from `orders` to `addresses`. -/
def twoKeyFkRows : List FkRow :=
  [⟨"fk_billing", "orders", "billing_id", "addresses", "id"⟩,
    ⟨"fk_shipping", "orders", "shipping_id", "addresses", "id"⟩]

/-- The schema of these rows, tables visited as `addresses`, `orders`. -/
def twoKeySchema : schema :=
  ⟨[⟨"addresses", [⟨"id", "int4"⟩]⟩,
    ⟨"orders", [⟨"id", "int4"⟩, ⟨"billing_id", "int4"⟩, ⟨"shipping_id", "int4"⟩]⟩],
   [⟨"fk_billing", 1, 1, 0, 0⟩, ⟨"fk_shipping", 1, 2, 0, 0⟩]⟩

/-- The attributes the node loop sets on the node of a table. -/
def nodeAttrs (t : table) : GoMap String :=
  [("shape", "none"), ("margin", "0"), ("label", tableLabel t)]

/-- The node the node loop leaves for a table. -/
def nodeOf (t : table) : Node := ⟨t.name, nodeAttrs t⟩

/-- The edge carries the label and the two port names of the relation. -/
def edgeCarries (ed : Edge) (r : relation) : Prop :=
  attrOf ed.attrs "label" = r.name
    ∧ attrOf ed.attrs "tailport" = portName r.fromColumn
    ∧ attrOf ed.attrs "headport" = portName r.toColumn

instance (ed : Edge) (r : relation) : Decidable (edgeCarries ed r) := by
  unfold edgeCarries
  infer_instance

/-- The three setters of one round of the edge loop, applied to an edge. -/
def setEdgeAttrs (rel : relation) (ed : Edge) : Edge :=
  { ed with attrs := mapSet (mapSet (mapSet ed.attrs "label" rel.name)
      "tailport" (portName rel.fromColumn)) "headport" (portName rel.toColumn) }

/-- The table indices of the relation select entries of the slice `nodes`. -/
def tableIndicesValid (nodes : List Nat) (r : relation) : Prop :=
  (goIndex nodes r.fromTable).isSome ∧ (goIndex nodes r.toTable).isSome

instance (nodes : List Nat) (r : relation) : Decidable (tableIndicesValid nodes r) := by
  unfold tableIndicesValid
  infer_instance

/-- The opening tag of the label of a node. -/
def tableOpen : String :=
  "<TABLE BORDER=\"0\" CELLBORDER=\"1\" CELLSPACING=\"0\">"

/-- The header row of a label: the table name, inserted as it is. -/
def headerRow (name : String) : String :=
  "<TR><TD BGCOLOR=\"gray\">" ++ name ++ "</TD></TR>"

/-- The row of the column at 0-based index `i`: port `p<i>`, then the name and
the type name of the column, inserted as they are. -/
def columnRow (i : Nat) (col : columnData) : String :=
  "<TR><TD PORT=\"p" ++ toString i ++ "\">" ++ col.name ++ " <i>" ++ col.desc ++ "</i></TD></TR>"

/-- The rows one after the other. -/
def concatRows : List String → String
  | [] => ""
  | row :: rest => row ++ concatRows rest

/-- The label text declares a port of this name: it holds `PORT="<port>"`. -/
def hasPort (label port : String) : Prop :=
  ("PORT=\"" ++ port ++ "\"").data <:+: label.data

instance (label port : String) : Decidable (hasPort label port) := by
  unfold hasPort
  infer_instance

/-- The label of a node of the graph. -/
def Node.label (n : Node) : String := attrOf n.attrs "label"

/-- The schema of the example of the specification, tables visited as
`orders`, `users`. -/
def exampleSchema : schema :=
  ⟨[ordersTable, usersTable], [⟨"fk_orders_user", 0, 1, 1, 0⟩]⟩

/-- A schema whose relation names column index 5 of a table with one column. -/
def badPortSchema : schema :=
  ⟨[⟨"t", [⟨"a", "int4"⟩]⟩], [⟨"fk", 0, 5, 0, 0⟩]⟩

/-- The table indices of the relation are valid indices into `tables`. -/
def tablesInRange (tables : List table) (r : relation) : Prop :=
  (0 ≤ r.fromTable ∧ r.fromTable < tables.length) ∧ (0 ≤ r.toTable ∧ r.toTable < tables.length)

instance (tables : List table) (r : relation) : Decidable (tablesInRange tables r) := by
  unfold tablesInRange
  infer_instance

/-- A character that could end a quoted SQL string or start another piece of
SQL: a single quote, a backslash, a semicolon, white space, or a character of
a comment mark (`--`, `/*`, `*/`, `#`). -/
def isQueryBreaker (c : Char) : Prop :=
  c.toNat = 39 ∨ c.toNat = 92 ∨ c = ';' ∨ c.toNat ∈ spaceCodes
    ∨ c = '-' ∨ c = '/' ∨ c = '*' ∨ c = '#'

instance : DecidablePred isQueryBreaker := fun c => by
  unfold isQueryBreaker
  infer_instance

/-- The single quote. -/
def singleQuote : Char := Char.ofNat 39

/-- A connection that answers the two queries with the rows of the example of
the specification. -/
def exampleConn : Conn :=
  ⟨fun q => if q = columnQuery "public" then .ok (exampleColumnRows.map ColumnRow.raw)
    else .ok (exampleFkRows.map FkRow.raw)⟩

/-- The label of the node at position `n` declares the port. -/
def portDeclaredAt (g : Graph) (n : Nat) (port : String) : Prop :=
  match g.nodes.get? n with
  | some node => hasPort node.label port
  | none => False

instance (g : Graph) (n : Nat) (port : String) : Decidable (portDeclaredAt g n port) := by
  unfold portDeclaredAt
  cases g.nodes.get? n <;> infer_instance

/-- Every edge of the graph names, at its tail and at its head, a port that
the label of the node there declares. -/
def portsDeclared (g : Graph) : Prop :=
  ∀ ed ∈ g.edges, portDeclaredAt g ed.tail (attrOf ed.attrs "tailport")
    ∧ portDeclaredAt g ed.head (attrOf ed.attrs "headport")

instance (g : Graph) : Decidable (portsDeclared g) := by
  unfold portsDeclared
  infer_instance

/-- The renderer reports an error for a graph with an edge end naming a port
that the label of its node does not declare. -/
def rejectsUndeclaredPorts (gv : Graphviz) : Prop :=
  ∀ g path, ¬ portsDeclared g → (gv.renderErr g path).isSome = true

/-- A library whose renderer reports an error exactly for the graphs with an
undeclared port, and in which no other call reports an error. -/
def Graphviz.strictPorts : Graphviz :=
  Graphviz.rendering (fun g _ => if portsDeclared g then none else some "port unrecognized")

/-- A schema whose first relation names column index 5 of a table with one
column and whose second relation, between the same two tables, is valid. -/
def overwrittenPortSchema : schema :=
  ⟨[⟨"a", [⟨"x", "int4"⟩]⟩, ⟨"b", [⟨"id", "int4"⟩]⟩],
   [⟨"fk1", 0, 5, 1, 0⟩, ⟨"fk2", 0, 0, 1, 0⟩]⟩

/-- The same tables with the valid relation only. -/
def validPortSchema : schema :=
  ⟨[⟨"a", [⟨"x", "int4"⟩]⟩, ⟨"b", [⟨"id", "int4"⟩]⟩], [⟨"fk2", 0, 0, 1, 0⟩]⟩

/-- Column rows of a table with two references to itself. -/
def twoSelfColumnRows : List ColumnRow :=
  [⟨"employees", "id", "int4"⟩, ⟨"employees", "manager_id", "int4"⟩,
    ⟨"employees", "mentor_id", "int4"⟩]

/-- Two foreign keys of `employees` to itself. -/
def twoSelfFkRows : List FkRow :=
  [⟨"fk_manager", "employees", "manager_id", "employees", "id"⟩,
    ⟨"fk_mentor", "employees", "mentor_id", "employees", "id"⟩]

/-- The schema of these rows. -/
def twoSelfSchema : schema :=
  ⟨[⟨"employees", [⟨"id", "int4"⟩, ⟨"manager_id", "int4"⟩, ⟨"mentor_id", "int4"⟩]⟩],
   [⟨"fk_manager", 0, 1, 0, 0⟩, ⟨"fk_mentor", 0, 2, 0, 0⟩]⟩

/-! ## The allow-list check: lemmas -/

theorem schemaClass_iff (c : Char) : schemaClass c = true ↔ isIdentChar c := by
  have hle : ∀ a b : Char, a ≤ b ↔ a.toNat ≤ b.toNat := fun a b => Iff.rfl
  have heq : c = '_' ↔ c.toNat = 95 := by
    constructor
    · rintro rfl; rfl
    · intro h
      apply Char.ext
      apply UInt32.ext
      exact h
  simp only [schemaClass, perlWord, perlDigit, isIdentChar, hle, heq, Bool.or_eq_true,
    Bool.and_eq_true, decide_eq_true_eq, beq_iff_eq]
  have h0 : ('0' : Char).toNat = 48 := rfl
  have h9 : ('9' : Char).toNat = 57 := rfl
  have hA : ('A' : Char).toNat = 65 := rfl
  have hZ : ('Z' : Char).toNat = 90 := rfl
  have ha : ('a' : Char).toNat = 97 := rfl
  have hz : ('z' : Char).toNat = 122 := rfl
  rw [h0, h9, hA, hZ, ha, hz]
  omega

theorem classPlusEnd_iff (l : List Char) :
    classPlusEnd l = true ↔ l ≠ [] ∧ ∀ c ∈ l, schemaClass c = true := by
  induction l with
  | nil => simp [classPlusEnd]
  | cons c rest ih =>
    cases rest with
    | nil => simp [classPlusEnd]
    | cons d rest' =>
      simp only [classPlusEnd, List.isEmpty_cons, Bool.false_or, Bool.and_eq_true] at ih ⊢
      simp only [ih, List.mem_cons, forall_eq_or_imp, ne_eq, reduceCtorEq, not_false_eq_true,
        true_and]

theorem schemaValidRegex_eq (s : String) : schemaValidRegex s = classPlusEnd s.data := by
  unfold schemaValidRegex
  rw [Bool.eq_iff_iff, List.any_eq_true]
  constructor
  · rintro ⟨i, _, hi⟩
    simp only [schemaValidRegexAt, Bool.and_eq_true, beq_iff_eq] at hi
    obtain ⟨rfl, h⟩ := hi
    simpa using h
  · intro h
    exact ⟨0, by simp, by simpa [schemaValidRegexAt] using h⟩

theorem schemaValidRegex_iff (s : String) :
    schemaValidRegex s = true ↔ s ≠ "" ∧ ∀ c ∈ s.data, isIdentChar c := by
  rw [schemaValidRegex_eq, classPlusEnd_iff]
  have hne : s.data ≠ [] ↔ s ≠ "" := by
    constructor
    · rintro h rfl; exact h rfl
    · intro h hd; apply h; apply String.ext; simpa using hd
  rw [hne]
  simp only [schemaClass_iff]

theorem not_isIdentChar_of_special (c : Char) (h : isQuoteSemicolonSpace c) :
    ¬ isIdentChar c := by
  rw [← schemaClass_iff]
  have hs : c = ';' → c.toNat = 59 := by rintro rfl; rfl
  have hu : c = '_' → c.toNat = 95 := by rintro rfl; rfl
  simp only [schemaClass, perlWord, perlDigit, Bool.or_eq_true, Bool.and_eq_true,
    decide_eq_true_eq, beq_iff_eq]
  simp only [isQuoteSemicolonSpace, spaceCodes, List.mem_cons, List.mem_singleton,
    List.not_mem_nil, or_false] at h
  intro hc
  have h1 : c.toNat = 95 ∨ (48 ≤ c.toNat ∧ c.toNat ≤ 57) ∨ (65 ≤ c.toNat ∧ c.toNat ≤ 90)
      ∨ (97 ≤ c.toNat ∧ c.toNat ≤ 122) := by
    rcases hc with ((((h | h) | h) | h) | h) | h
    · exact Or.inr (Or.inl h)
    · exact Or.inr (Or.inr (Or.inl h))
    · exact Or.inl h
    · exact Or.inr (Or.inr (Or.inr h))
    · exact Or.inr (Or.inl h)
    · exact Or.inl (hu h)
  have h2 : c.toNat = 39 ∨ c.toNat = 34 ∨ c.toNat = 59 ∨ c.toNat = 9 ∨ c.toNat = 10
      ∨ c.toNat = 11 ∨ c.toNat = 12 ∨ c.toNat = 13 ∨ c.toNat = 32 ∨ 133 ≤ c.toNat := by
    rcases h with h | h | h | h
    · exact Or.inl h
    · exact Or.inr (Or.inl h)
    · exact Or.inr (Or.inr (Or.inl (hs h)))
    · omega
  omega

/-! ## The allow-list check: claims -/

/-- C1: the check `schemaValidRegex.MatchString` accepts a string exactly when
it is non-empty and each of its characters is an ASCII letter, an ASCII digit
or an underscore; so the empty string, every string holding a quote, a
semicolon or a white-space character, and every string with a trailing newline
are rejected. -/
theorem schemaValidRegex_accepts_iff :
    (∀ s : String, schemaValidRegex s = true ↔ s ≠ "" ∧ ∀ c ∈ s.data, isIdentChar c)
    ∧ schemaValidRegex "" = false
    ∧ (∀ (s : String) (c : Char), c ∈ s.data → isQuoteSemicolonSpace c →
        schemaValidRegex s = false)
    ∧ (∀ s : String, schemaValidRegex (s ++ "\n") = false) := by
  have key : ∀ (s : String) (c : Char), c ∈ s.data → isQuoteSemicolonSpace c →
      schemaValidRegex s = false := by
    intro s c hc hq
    rw [← Bool.not_eq_true, schemaValidRegex_iff]
    rintro ⟨_, hall⟩
    exact not_isIdentChar_of_special c hq (hall c hc)
  refine ⟨schemaValidRegex_iff, ?_, key, ?_⟩
  · rw [← Bool.not_eq_true, schemaValidRegex_iff]
    rintro ⟨h, _⟩
    exact h rfl
  · intro s
    apply key (s ++ "\n") '\n'
    · simp
    · right; right; right
      decide

/-- C1, at the names `public`, `a;b` and `public` followed by a newline. -/
theorem schemaValidRegex_accepts_iff_witness :
    schemaValidRegex "public" = true ∧ schemaValidRegex "a;b" = false
      ∧ schemaValidRegex ("public" ++ "\n") = false :=
  ⟨(schemaValidRegex_accepts_iff.1 "public").2
      ⟨by decide, by decide⟩,
    schemaValidRegex_accepts_iff.2.2.1 "a;b" ';' (by decide) (by decide),
    schemaValidRegex_accepts_iff.2.2.2 "public"⟩

/-- C2: a schema name the check rejects makes `fetchSchemaConnected` panic
before any query: no query text is sent and no schema is returned. -/
theorem fetchSchemaConnected_rejected (conn : Conn) (order : List String) (schemaName : String)
    (h : schemaValidRegex schemaName = false) :
    (fetchSchemaConnected conn order schemaName).queries = []
    ∧ (fetchSchemaConnected conn order schemaName).outcome
        = .panic ("'" ++ schemaName ++ "' is not a valid schema name")
    ∧ (fetchSchemaConnected conn order schemaName).outcome.value? = none := by
  simp [fetchSchemaConnected, h, Outcome.value?]

/-- C2, at the name `x'; DROP` on a connection that would answer every query. -/
theorem fetchSchemaConnected_rejected_witness :
    schemaValidRegex "x'; DROP" = false
    ∧ (fetchSchemaConnected ⟨fun _ => .ok []⟩ [] "x'; DROP").queries = []
    ∧ (fetchSchemaConnected ⟨fun _ => .ok []⟩ [] "x'; DROP").outcome
        = .panic ("'" ++ "x'; DROP" ++ "' is not a valid schema name")
    ∧ (fetchSchemaConnected ⟨fun _ => .ok []⟩ [] "x'; DROP").outcome.value? = none :=
  ⟨by decide, fetchSchemaConnected_rejected ⟨fun _ => .ok []⟩ [] "x'; DROP" (by decide)⟩

/-! ## Go maps: lemmas -/

theorem mapGet_mapSet_self {α : Type} (m : GoMap α) (k : String) (v : α) :
    mapGet (mapSet m k v) k = some v := by
  induction m with
  | nil => simp [mapSet, mapGet]
  | cons p rest ih =>
    obtain ⟨k', v'⟩ := p
    by_cases h : k' = k
    · simp [mapSet, mapGet, h]
    · simp [mapSet, mapGet, h, ih]

theorem mapGet_mapSet_ne {α : Type} (m : GoMap α) (k k' : String) (v : α) (h : k ≠ k') :
    mapGet (mapSet m k v) k' = mapGet m k' := by
  induction m with
  | nil => simp [mapSet, mapGet, h]
  | cons p rest ih =>
    obtain ⟨k₁, v₁⟩ := p
    by_cases h1 : k₁ = k
    · subst h1
      simp [mapSet, mapGet, h]
    · by_cases h2 : k₁ = k'
      · subst h2
        simp [mapSet, mapGet, h1]
      · simp [mapSet, mapGet, h1, h2, ih]

theorem mapGet_eq_none_iff {α : Type} (m : GoMap α) (k : String) :
    mapGet m k = none ↔ k ∉ mapKeys m := by
  induction m with
  | nil => simp [mapGet, mapKeys]
  | cons p rest ih =>
    obtain ⟨k₁, v₁⟩ := p
    by_cases h1 : k₁ = k
    · simp [mapGet, mapKeys, h1]
    · have h1' : ¬ k = k₁ := fun h => h1 h.symm
      simpa [mapGet, mapKeys, h1, h1'] using ih

theorem mapGet_isSome_iff {α : Type} (m : GoMap α) (k : String) :
    (∃ v, mapGet m k = some v) ↔ k ∈ mapKeys m := by
  have := mapGet_eq_none_iff m k
  cases h : mapGet m k with
  | none => simpa [h] using this
  | some v =>
    rw [h] at this
    simp only [reduceCtorEq, false_iff, not_not] at this
    simp [this]

theorem mapKeys_mapSet {α : Type} (m : GoMap α) (k : String) (v : α) :
    mapKeys (mapSet m k v) = if k ∈ mapKeys m then mapKeys m else mapKeys m ++ [k] := by
  induction m with
  | nil => simp [mapSet, mapKeys]
  | cons p rest ih =>
    obtain ⟨k₁, v₁⟩ := p
    by_cases h1 : k₁ = k
    · subst h1
      simp [mapSet, mapKeys]
    · have h1' : ¬ k = k₁ := fun h => h1 h.symm
      simp only [mapKeys] at ih
      by_cases h2 : k ∈ List.map Prod.fst rest
      · simp [mapSet, mapKeys, h1, h1', h2, ih]
      · simp [mapSet, mapKeys, h1, h1', h2, ih]

theorem mapKeys_mapSet_nodup {α : Type} (m : GoMap α) (k : String) (v : α)
    (h : (mapKeys m).Nodup) : (mapKeys (mapSet m k v)).Nodup := by
  rw [mapKeys_mapSet]
  split
  · exact h
  · rename_i hk
    rw [List.nodup_append]
    refine ⟨h, List.nodup_singleton k, ?_⟩
    intro a ha hb
    simp only [List.mem_singleton] at hb
    subst hb
    exact hk ha

theorem mem_mapKeys_mapSet {α : Type} (m : GoMap α) (k k' : String) (v : α) :
    k' ∈ mapKeys (mapSet m k v) ↔ k' = k ∨ k' ∈ mapKeys m := by
  rw [mapKeys_mapSet]
  split
  · rename_i hk
    constructor
    · exact Or.inr
    · rintro (rfl | h)
      · exact hk
      · exact h
  · simp [or_comm]

/-! ## Grouping: lemmas -/

theorem columnsOf_cons (t : String) (r : ColumnRow) (rows : List ColumnRow) :
    columnsOf t (r :: rows)
      = if r.table = t then ⟨r.column, r.udtName⟩ :: columnsOf t rows else columnsOf t rows := by
  unfold columnsOf
  by_cases h : r.table = t <;> simp [List.filter_cons, h]

theorem columnsOf_eq_nil (t : String) (rows : List ColumnRow) (h : ¬ hasTable rows t) :
    columnsOf t rows = [] := by
  unfold columnsOf
  simp only [List.map_eq_nil_iff, List.filter_eq_nil_iff, decide_eq_true_eq]
  intro r hr ht
  exact h ⟨r, hr, ht⟩

theorem hasTable_cons (r : ColumnRow) (rows : List ColumnRow) (t : String) :
    hasTable (r :: rows) t ↔ r.table = t ∨ hasTable rows t := by
  simp [hasTable]

theorem mapGet_groupStep (m : GoMap table) (r : ColumnRow) (t : String) :
    mapGet (groupStep m r) t
      = if r.table = t then
          some ⟨t, ((mapGet m t).getD ⟨"", []⟩).columns ++ [⟨r.column, r.udtName⟩]⟩
        else mapGet m t := by
  unfold groupStep
  by_cases h : r.table = t
  · subst h
    simp [mapGet_mapSet_self]
  · simp [mapGet_mapSet_ne _ _ _ _ h, h]

theorem mapGet_foldl_groupStep (rows : List ColumnRow) (m : GoMap table) (t : String) :
    mapGet (rows.foldl groupStep m) t
      = if hasTable rows t then
          some ⟨t, ((mapGet m t).getD ⟨"", []⟩).columns ++ columnsOf t rows⟩
        else mapGet m t := by
  induction rows generalizing m with
  | nil => simp [hasTable]
  | cons r rest ih =>
    rw [List.foldl_cons, ih, mapGet_groupStep, columnsOf_cons]
    by_cases h : r.table = t
    · by_cases h2 : hasTable rest t
      · simp [h, h2, hasTable_cons]
      · simp [h, h2, hasTable_cons, columnsOf_eq_nil t rest h2]
    · by_cases h2 : hasTable rest t <;> simp [h, h2, hasTable_cons]

theorem mapGet_groupRows (rows : List ColumnRow) (t : String) :
    mapGet (groupRows rows) t
      = if hasTable rows t then some ⟨t, columnsOf t rows⟩ else none := by
  unfold groupRows
  rw [mapGet_foldl_groupStep]
  simp [mapGet]

theorem mapKeys_foldl_groupStep_nodup (rows : List ColumnRow) (m : GoMap table)
    (h : (mapKeys m).Nodup) : (mapKeys (rows.foldl groupStep m)).Nodup := by
  induction rows generalizing m with
  | nil => simpa using h
  | cons r rest ih =>
    rw [List.foldl_cons]
    exact ih _ (mapKeys_mapSet_nodup _ _ _ h)

theorem mapKeys_groupRows_nodup (rows : List ColumnRow) :
    (mapKeys (groupRows rows)).Nodup :=
  mapKeys_foldl_groupStep_nodup rows [] (by simp [mapKeys])

theorem mem_mapKeys_groupRows (rows : List ColumnRow) (t : String) :
    t ∈ mapKeys (groupRows rows) ↔ hasTable rows t := by
  rw [← mapGet_isSome_iff, mapGet_groupRows]
  by_cases h : hasTable rows t <;> simp [h]

/-- Under a range order every key is visited once and yields its table. -/
theorem mapRange_groupRows (rows : List ColumnRow) (order : List String)
    (h : ∀ k ∈ order, hasTable rows k) :
    mapRange (groupRows rows) order = order.map (fun k => ⟨k, columnsOf k rows⟩) := by
  unfold mapRange
  induction order with
  | nil => rfl
  | cons k rest ih =>
    have hk : hasTable rows k := h k (by simp)
    rw [List.filterMap_cons, mapGet_groupRows]
    simp only [hk, if_true, List.map_cons]
    rw [ih (fun k' hk' => h k' (by simp [hk']))]

theorem IsRangeOrder.hasTable {rows : List ColumnRow} {order : List String}
    (h : IsRangeOrder (groupRows rows) order) (k : String) :
    k ∈ order ↔ SchemaView.hasTable rows k := by
  rw [h.mem_iff, mem_mapKeys_groupRows]

theorem IsRangeOrder.nodup {rows : List ColumnRow} {order : List String}
    (h : IsRangeOrder (groupRows rows) order) : order.Nodup :=
  h.nodup_iff.2 (mapKeys_groupRows_nodup rows)

/-! ## The index map: lemmas -/

theorem goIndex_natCast {α : Type} (xs : List α) (j : Nat) :
    goIndex xs (j : Int) = xs.get? j := by
  simp [goIndex]

theorem goIndex_eq_some {α : Type} {xs : List α} {i : Int} {x : α}
    (h : goIndex xs i = some x) : 0 ≤ i ∧ i < xs.length := by
  unfold goIndex at h
  split at h
  · cases h
  · rename_i hi
    have hlt : i.toNat < xs.length := by
      rw [List.get?_eq_some] at h
      exact h.1
    omega

theorem mapGet_columnIndexFrom_not_mem (cols : List columnData) (i : Int) (m : GoMap Int)
    (c : String) (h : c ∉ cols.map columnData.name) :
    mapGet (columnIndexFrom cols i m) c = mapGet m c := by
  induction cols generalizing i m with
  | nil => rfl
  | cons col rest ih =>
    simp only [List.map_cons, List.mem_cons, not_or] at h
    rw [columnIndexFrom, ih _ _ h.2, mapGet_mapSet_ne _ _ _ _ (fun e => h.1 e.symm)]

theorem mapGet_columnIndexFrom_mem (cols : List columnData) (i : Int) (m : GoMap Int)
    (c : String) (h : c ∈ cols.map columnData.name) :
    ∃ j : Nat, mapGet (columnIndexFrom cols i m) c = some (i + j)
      ∧ ∃ col, cols.get? j = some col ∧ col.name = c := by
  induction cols generalizing i m with
  | nil => simp at h
  | cons col rest ih =>
    by_cases hr : c ∈ rest.map columnData.name
    · obtain ⟨j, hj, col', hcol, hname⟩ := ih (i + 1) (mapSet m col.name i) hr
      refine ⟨j + 1, ?_, col', by simpa using hcol, hname⟩
      rw [columnIndexFrom, hj]
      congr 1
      push_cast
      ring
    · have hc : col.name = c := by
        simp only [List.map_cons, List.mem_cons] at h
        rcases h with h | h
        · exact h.symm
        · exact absurd h hr
      refine ⟨0, ?_, col, by simp, hc⟩
      rw [columnIndexFrom, mapGet_columnIndexFrom_not_mem _ _ _ _ hr, ← hc, mapGet_mapSet_self]
      simp

theorem mapGet_columnIndex_eq_none (cols : List columnData) (c : String)
    (h : c ∉ cols.map columnData.name) : mapGet (columnIndex cols) c = none := by
  unfold columnIndex
  rw [mapGet_columnIndexFrom_not_mem _ _ _ _ h]
  rfl

theorem mapGet_columnIndex_mem (cols : List columnData) (c : String)
    (h : c ∈ cols.map columnData.name) :
    ∃ ci : Int, mapGet (columnIndex cols) c = some ci
      ∧ ∃ col, goIndex cols ci = some col ∧ col.name = c := by
  obtain ⟨j, hj, col, hcol, hname⟩ := mapGet_columnIndexFrom_mem cols 0 [] c h
  refine ⟨(j : Int), ?_, col, ?_, hname⟩
  · unfold columnIndex
    rw [hj]
    simp
  · rw [goIndex_natCast]
    exact hcol

theorem mapGet_columnIndex_some (cols : List columnData) (c : String) (ci : Int)
    (h : mapGet (columnIndex cols) c = some ci) :
    ∃ col, goIndex cols ci = some col ∧ col.name = c := by
  by_cases hc : c ∈ cols.map columnData.name
  · obtain ⟨ci', h', hcol⟩ := mapGet_columnIndex_mem cols c hc
    rw [h] at h'
    cases h'
    exact hcol
  · rw [mapGet_columnIndex_eq_none cols c hc] at h
    cases h

theorem mem_map_name_columnsOf (rows : List ColumnRow) (t c : String) :
    c ∈ (columnsOf t rows).map columnData.name ↔ hasColumn rows t c := by
  unfold columnsOf hasColumn
  simp only [List.map_map, List.mem_map, List.mem_filter, decide_eq_true_eq, Function.comp]
  constructor
  · rintro ⟨r, ⟨hr, ht⟩, hc⟩
    exact ⟨r, hr, ht, hc⟩
  · rintro ⟨r, hr, ht, hc⟩
    exact ⟨r, ⟨hr, ht⟩, hc⟩

theorem foldl_indexStep_tables (ts : List table) (st : IndexState) :
    (ts.foldl indexStep st).tables = st.tables ++ ts := by
  induction ts generalizing st with
  | nil => simp
  | cons t rest ih => rw [List.foldl_cons, ih]; simp [indexStep]

theorem foldl_indexStep_table_index (ts : List table) (st : IndexState) :
    (ts.foldl indexStep st).table_index = st.table_index + ts.length := by
  induction ts generalizing st with
  | nil => simp
  | cons t rest ih =>
    rw [List.foldl_cons, ih]
    simp only [indexStep, List.length_cons]
    push_cast
    ring

theorem foldl_indexStep_not_mem (ts : List table) (st : IndexState) (name : String)
    (h : name ∉ ts.map table.name) :
    mapGet (ts.foldl indexStep st).index_map name = mapGet st.index_map name := by
  induction ts generalizing st with
  | nil => rfl
  | cons t rest ih =>
    simp only [List.map_cons, List.mem_cons, not_or] at h
    rw [List.foldl_cons, ih _ h.2]
    simp only [indexStep]
    rw [mapGet_mapSet_ne _ _ _ _ (fun e => h.1 e.symm)]

/-- Whatever the order, an entry of the index map comes from the start map or
from a table that was visited. -/
theorem foldl_indexStep_some (ts : List table) (st : IndexState) (name : String)
    (idx : table_col_index) (h : mapGet (ts.foldl indexStep st).index_map name = some idx) :
    mapGet st.index_map name = some idx
      ∨ ∃ t ∈ ts, t.name = name ∧ idx.columns = columnIndex t.columns := by
  induction ts generalizing st with
  | nil => exact Or.inl h
  | cons t rest ih =>
    rw [List.foldl_cons] at h
    rcases ih _ h with h1 | ⟨t', ht', hn, hc⟩
    · simp only [indexStep] at h1
      by_cases hname : t.name = name
      · rw [← hname, mapGet_mapSet_self] at h1
        cases h1
        exact Or.inr ⟨t, by simp, hname, rfl⟩
      · rw [mapGet_mapSet_ne _ _ _ _ hname] at h1
        exact Or.inl h1
    · exact Or.inr ⟨t', by simp [ht'], hn, hc⟩

/-- With distinct table names, the entry of the `j`-th visited table holds its
position and the lookup of its columns. -/
theorem foldl_indexStep_get (ts : List table) (st : IndexState)
    (hnd : (ts.map table.name).Nodup) (j : Nat) (t : table) (hj : ts.get? j = some t) :
    mapGet (ts.foldl indexStep st).index_map t.name
      = some ⟨st.table_index + j, columnIndex t.columns⟩ := by
  induction ts generalizing st j with
  | nil => simp at hj
  | cons t0 rest ih =>
    simp only [List.map_cons, List.nodup_cons] at hnd
    rw [List.foldl_cons]
    cases j with
    | zero =>
      simp only [List.get?_cons_zero, Option.some.injEq] at hj
      subst hj
      rw [foldl_indexStep_not_mem _ _ _ hnd.1]
      simp [indexStep, mapGet_mapSet_self]
    | succ j' =>
      simp only [List.get?_cons_succ] at hj
      rw [ih _ hnd.2 j' hj]
      simp only [indexStep]
      congr 2
      push_cast
      ring

/-! ## The index map of the grouped rows -/

theorem mem_mapRange {α : Type} (m : GoMap α) (order : List String) (v : α)
    (h : v ∈ mapRange m order) : ∃ k ∈ order, mapGet m k = some v := by
  unfold mapRange at h
  rw [List.mem_filterMap] at h
  exact h

/-- Whatever the order of the visit, an entry of the index map belongs to a
table of the column rows and holds the lookup of that table's columns. -/
theorem buildIndex_some (rows : List ColumnRow) (order : List String) (name : String)
    (idx : table_col_index)
    (h : mapGet (buildIndex (groupRows rows) order).index_map name = some idx) :
    hasTable rows name ∧ idx.columns = columnIndex (columnsOf name rows) := by
  unfold buildIndex at h
  rcases foldl_indexStep_some _ _ _ _ h with h0 | ⟨t, ht, hn, hc⟩
  · simp [mapGet] at h0
  · obtain ⟨k, _, hk⟩ := mem_mapRange _ _ _ ht
    rw [mapGet_groupRows] at hk
    split at hk
    · rename_i hT
      cases hk
      simp only at hn
      subst hn
      exact ⟨hT, hc⟩
    · cases hk

theorem buildIndex_tables (rows : List ColumnRow) (order : List String)
    (hord : IsRangeOrder (groupRows rows) order) :
    (buildIndex (groupRows rows) order).tables
      = order.map (fun k => ⟨k, columnsOf k rows⟩) := by
  unfold buildIndex
  rw [foldl_indexStep_tables, mapRange_groupRows rows order (fun k hk => (hord.hasTable k).1 hk)]
  rfl

theorem buildIndex_tables_names (rows : List ColumnRow) (order : List String)
    (hord : IsRangeOrder (groupRows rows) order) :
    (buildIndex (groupRows rows) order).tables.map table.name = order := by
  rw [buildIndex_tables rows order hord, List.map_map]
  have hid : (table.name ∘ fun k => (⟨k, columnsOf k rows⟩ : table)) = id := rfl
  rw [hid, List.map_id]

/-- Under a range order the entry of a table of the column rows holds the
position of that table in the table sequence. -/
theorem buildIndex_get (rows : List ColumnRow) (order : List String)
    (hord : IsRangeOrder (groupRows rows) order) (name : String) (hT : hasTable rows name) :
    ∃ j : Nat,
      mapGet (buildIndex (groupRows rows) order).index_map name
        = some ⟨j, columnIndex (columnsOf name rows)⟩
      ∧ goIndex (buildIndex (groupRows rows) order).tables j
        = some ⟨name, columnsOf name rows⟩ := by
  have hmem : name ∈ order := (hord.hasTable name).2 hT
  obtain ⟨j, hj⟩ := List.get?_of_mem hmem
  have hts : mapRange (groupRows rows) order = order.map (fun k => ⟨k, columnsOf k rows⟩) :=
    mapRange_groupRows rows order (fun k hk => (hord.hasTable k).1 hk)
  have hget : (order.map (fun k => (⟨k, columnsOf k rows⟩ : table))).get? j
      = some ⟨name, columnsOf name rows⟩ := by
    simp only [List.get?_eq_getElem?] at hj ⊢
    rw [List.getElem?_map, hj]
    rfl
  refine ⟨j, ?_, ?_⟩
  · unfold buildIndex
    rw [hts]
    have hnd : ((order.map (fun k => (⟨k, columnsOf k rows⟩ : table))).map table.name).Nodup := by
      rw [List.map_map]
      have hid : (table.name ∘ fun k => (⟨k, columnsOf k rows⟩ : table)) = id := rfl
      rw [hid, List.map_id]
      exact hord.nodup
    have := foldl_indexStep_get _ ⟨[], [], 0⟩ hnd j _ hget
    simpa using this
  · rw [buildIndex_tables rows order hord, goIndex_natCast]
    exact hget

/-! ## Resolution: lemmas -/

theorem resolveRelation_error (rows : List ColumnRow) (order : List String) (fk : FkRow)
    (h : ¬ namesPresent rows fk) :
    ∃ msg, resolveRelation (buildIndex (groupRows rows) order).index_map fk = .error msg := by
  have hcol : ∀ (t c : String) (idx : table_col_index),
      mapGet (buildIndex (groupRows rows) order).index_map t = some idx →
      ¬ hasColumn rows t c → mapGet idx.columns c = none := by
    intro t c idx hidx hc
    rw [(buildIndex_some rows order t idx hidx).2]
    exact mapGet_columnIndex_eq_none _ _ (fun hm => hc ((mem_map_name_columnsOf rows t c).1 hm))
  have htab : ∀ (t : String) (idx : table_col_index),
      mapGet (buildIndex (groupRows rows) order).index_map t = some idx → hasTable rows t :=
    fun t idx hidx => (buildIndex_some rows order t idx hidx).1
  unfold resolveRelation
  cases h1 : mapGet (buildIndex (groupRows rows) order).index_map fk.fromTable with
  | none => exact ⟨_, rfl⟩
  | some fromIdx =>
    simp only []
    cases h2 : mapGet fromIdx.columns fk.fromColumn with
    | none => exact ⟨_, rfl⟩
    | some fc =>
      simp only []
      cases h3 : mapGet (buildIndex (groupRows rows) order).index_map fk.toTable with
      | none => exact ⟨_, rfl⟩
      | some toIdx =>
        simp only []
        cases h4 : mapGet toIdx.columns fk.toColumn with
        | none => exact ⟨_, rfl⟩
        | some tc =>
          exfalso
          apply h
          refine ⟨htab _ _ h1, ?_, htab _ _ h3, ?_⟩
          · by_contra hc
            rw [hcol _ _ _ h1 hc] at h2
            cases h2
          · by_contra hc
            rw [hcol _ _ _ h3 hc] at h4
            cases h4

theorem columnNameAt_of (tables : List table) (j : Nat) (t : table) (ci : Int) (c : String)
    (ht : goIndex tables j = some t) (hc : mapGet (columnIndex t.columns) c = some ci) :
    columnNameAt tables j ci = some c := by
  obtain ⟨col, hcol, hname⟩ := mapGet_columnIndex_some _ _ _ hc
  simp [columnNameAt, ht, hcol, hname]

theorem resolveRelation_ok (rows : List ColumnRow) (order : List String)
    (hord : IsRangeOrder (groupRows rows) order) (fk : FkRow) (h : namesPresent rows fk) :
    ∃ r, resolveRelation (buildIndex (groupRows rows) order).index_map fk = .ok r
      ∧ resolvesTo (buildIndex (groupRows rows) order).tables fk r := by
  obtain ⟨hT1, hC1, hT2, hC2⟩ := h
  obtain ⟨j1, hj1, ht1⟩ := buildIndex_get rows order hord _ hT1
  obtain ⟨j2, hj2, ht2⟩ := buildIndex_get rows order hord _ hT2
  obtain ⟨c1, hc1, -⟩ := mapGet_columnIndex_mem _ _ ((mem_map_name_columnsOf rows _ _).2 hC1)
  obtain ⟨c2, hc2, -⟩ := mapGet_columnIndex_mem _ _ ((mem_map_name_columnsOf rows _ _).2 hC2)
  refine ⟨⟨fk.constraintName, j1, c1, j2, c2⟩, ?_, rfl, ?_, ?_, ?_, ?_⟩
  · simp [resolveRelation, hj1, hj2, hc1, hc2]
  · simp [tableNameAt, ht1]
  · exact columnNameAt_of _ _ _ _ _ ht1 hc1
  · simp [tableNameAt, ht2]
  · exact columnNameAt_of _ _ _ _ _ ht2 hc2

/-- The foreign-key loop never ends the process. -/
theorem resolveRelations_ne_exit (im : GoMap table_col_index) (fks : List FkRow)
    (acc : List relation) (code : Nat) : resolveRelations im fks acc ≠ .exit code := by
  induction fks generalizing acc with
  | nil => simp [resolveRelations]
  | cons fk rest ih =>
    unfold resolveRelations
    cases h : resolveRelation im fk with
    | error msg => simp
    | ok r => exact ih _

theorem resolveRelations_panic (im : GoMap table_col_index) (fks : List FkRow)
    (acc : List relation)
    (h : ∃ fk ∈ fks, ∃ msg, resolveRelation im fk = .error msg) :
    ∃ msg, resolveRelations im fks acc = .panic msg := by
  induction fks generalizing acc with
  | nil => simp at h
  | cons fk rest ih =>
    unfold resolveRelations
    cases hfk : resolveRelation im fk with
    | error msg => exact ⟨msg, rfl⟩
    | ok r =>
      apply ih
      obtain ⟨fk', hmem, msg, hmsg⟩ := h
      simp only [List.mem_cons] at hmem
      rcases hmem with rfl | hmem
      · rw [hfk] at hmsg
        cases hmsg
      · exact ⟨fk', hmem, msg, hmsg⟩

theorem resolveRelations_ok (im : GoMap table_col_index) (fks : List FkRow)
    (acc : List relation) (P : FkRow → relation → Prop)
    (h : ∀ fk ∈ fks, ∃ r, resolveRelation im fk = .ok r ∧ P fk r) :
    ∃ rs, resolveRelations im fks acc = .ok (acc ++ rs) ∧ List.Forall₂ P fks rs := by
  induction fks generalizing acc with
  | nil => exact ⟨[], by simp [resolveRelations], List.Forall₂.nil⟩
  | cons fk rest ih =>
    obtain ⟨r, hr, hP⟩ := h fk (by simp)
    obtain ⟨rs, hrs, hall⟩ := ih (acc ++ [r]) (fun fk' hm => h fk' (by simp [hm]))
    refine ⟨r :: rs, ?_, List.Forall₂.cons hP hall⟩
    unfold resolveRelations
    rw [hr]
    simpa using hrs

/-- When the loop returns, it has appended one resolved relation per row. -/
theorem resolveRelations_ok_inv (im : GoMap table_col_index) (fks : List FkRow)
    (acc out : List relation) (h : resolveRelations im fks acc = .ok out) :
    ∃ rs, out = acc ++ rs
      ∧ List.Forall₂ (fun fk r => resolveRelation im fk = .ok r) fks rs := by
  induction fks generalizing acc with
  | nil =>
    simp only [resolveRelations, Outcome.ok.injEq] at h
    exact ⟨[], by simp [h], List.Forall₂.nil⟩
  | cons fk rest ih =>
    unfold resolveRelations at h
    cases hfk : resolveRelation im fk with
    | error msg => rw [hfk] at h; cases h
    | ok r =>
      rw [hfk] at h
      obtain ⟨rs, hout, hall⟩ := ih _ h
      exact ⟨r :: rs, by simp [hout], List.Forall₂.cons hfk hall⟩

/-! ## `fetchSchemaConnected` on rows that decode -/

theorem scanColumnRows_raw (rows : List ColumnRow) (m : GoMap table) :
    scanColumnRows (rows.map ColumnRow.raw) m = .ok (rows.foldl groupStep m) := by
  induction rows generalizing m with
  | nil => rfl
  | cons r rest ih =>
    simp only [List.map_cons, scanColumnRows, ColumnRow.raw, scanColumnRow, List.foldl_cons]
    exact ih _

theorem scanFkRows_raw (im : GoMap table_col_index) (fks : List FkRow) (acc : List relation) :
    scanFkRows im (fks.map FkRow.raw) acc = resolveRelations im fks acc := by
  induction fks generalizing acc with
  | nil => rfl
  | cons fk rest ih =>
    simp only [List.map_cons, scanFkRows, FkRow.raw, scanFkRow, resolveRelations]
    cases resolveRelation im fk with
    | error msg => rfl
    | ok r => exact ih _

/-- On an accepted schema name and a connection that answers the two queries
with rows that decode, `fetchSchemaConnected` ends as `buildSchema` does on
the decoded rows. -/
theorem fetchSchemaConnected_eq_buildSchema (conn : Conn) (order : List String)
    (schemaName : String) (rows : List ColumnRow) (fks : List FkRow)
    (hname : schemaValidRegex schemaName = true)
    (hq1 : conn.query (columnQuery schemaName) = .ok (rows.map ColumnRow.raw))
    (hq2 : conn.query (fkQuery schemaName) = .ok (fks.map FkRow.raw)) :
    (fetchSchemaConnected conn order schemaName).outcome = buildSchema order rows fks := by
  unfold fetchSchemaConnected buildSchema
  simp only [hname, Bool.not_true, Bool.false_eq_true, if_false, hq1, hq2, scanColumnRows_raw,
    scanFkRows_raw, groupRows]
  cases resolveRelations (buildIndex (List.foldl groupStep [] rows) order).index_map fks [] <;> rfl

/-! ## The builder: lemmas -/

theorem buildSchema_ok_iff (order : List String) (rows : List ColumnRow) (fks : List FkRow)
    (s : schema) :
    buildSchema order rows fks = .ok s ↔
      s.tables = (buildIndex (groupRows rows) order).tables
      ∧ resolveRelations (buildIndex (groupRows rows) order).index_map fks [] = .ok s.relations := by
  simp only [buildSchema]
  cases h : resolveRelations (buildIndex (groupRows rows) order).index_map fks [] with
  | ok rels =>
    simp only [Outcome.ok.injEq]
    constructor
    · rintro rfl; exact ⟨rfl, rfl⟩
    · rintro ⟨h1, h2⟩
      cases s
      simp only at h1 h2
      rw [h1, h2]
  | panic msg => simp
  | exit code => simp

theorem resolvesTo_inRange (tables : List table) (fk : FkRow) (r : relation)
    (h : resolvesTo tables fk r) : relationInRange tables r := by
  obtain ⟨-, h1, h2, h3, h4⟩ := h
  have key : ∀ (ti ci : Int) (c : String), columnNameAt tables ti ci = some c →
      0 ≤ ti ∧ ti < tables.length ∧ 0 ≤ ci ∧ ci < columnCountAt tables ti := by
    intro ti ci c hc
    unfold columnNameAt at hc
    cases ht : goIndex tables ti with
    | none => simp [ht] at hc
    | some t =>
      simp only [ht, Option.some_bind, Option.map_eq_some'] at hc
      obtain ⟨col, hcol, -⟩ := hc
      have b1 := goIndex_eq_some ht
      have b2 := goIndex_eq_some hcol
      refine ⟨b1.1, b1.2, b2.1, ?_⟩
      simp only [columnCountAt, ht, Option.map_some', Option.getD_some]
      exact b2.2
  have k1 := key _ _ _ h2
  have k2 := key _ _ _ h4
  exact ⟨k1.1, k1.2.1, k1.2.2.1, k1.2.2.2, k2.1, k2.2.1, k2.2.2.1, k2.2.2.2⟩

/-- Under a range order, a row that resolves names only present names and its
relation leads back to those names. -/
theorem resolveRelation_ok_inv (rows : List ColumnRow) (order : List String)
    (hord : IsRangeOrder (groupRows rows) order) (fk : FkRow) (r : relation)
    (h : resolveRelation (buildIndex (groupRows rows) order).index_map fk = .ok r) :
    namesPresent rows fk ∧ resolvesTo (buildIndex (groupRows rows) order).tables fk r := by
  have hp : namesPresent rows fk := by
    by_contra hn
    obtain ⟨msg, hmsg⟩ := resolveRelation_error rows order fk hn
    rw [h] at hmsg
    cases hmsg
  obtain ⟨r', hr', hres⟩ := resolveRelation_ok rows order hord fk hp
  rw [h] at hr'
  cases hr'
  exact ⟨hp, hres⟩

theorem sum_columns_length (rows : List ColumnRow) (order : List String)
    (hord : IsRangeOrder (groupRows rows) order) :
    ((order.map (fun k => (⟨k, columnsOf k rows⟩ : table))).map
      (fun tb => tb.columns.length)).sum = rows.length := by
  have hperm : order.Perm (rows.map ColumnRow.table).dedup := by
    rw [List.perm_ext_iff_of_nodup hord.nodup (List.nodup_dedup _)]
    intro a
    rw [hord.hasTable, List.mem_dedup]
    simp [hasTable]
  have hlen : ∀ k, (columnsOf k rows).length = (rows.map ColumnRow.table).count k := by
    intro k
    unfold columnsOf
    rw [List.length_map, List.count_eq_countP, List.countP_map, List.countP_eq_length_filter]
    congr 2
  rw [List.map_map]
  have hfun : ((fun tb : table => tb.columns.length) ∘ fun k => (⟨k, columnsOf k rows⟩ : table))
      = fun k => (rows.map ColumnRow.table).count k := by
    funext k
    exact hlen k
  rw [hfun, (hperm.map _).sum_eq, List.sum_map_count_dedup_eq_length, List.length_map]

/-! ## Two range orders compared -/

theorem buildIndex_lookup_none (rows : List ColumnRow) (order : List String) (name : String)
    (h : ¬ hasTable rows name) :
    mapGet (buildIndex (groupRows rows) order).index_map name = none := by
  cases hm : mapGet (buildIndex (groupRows rows) order).index_map name with
  | none => rfl
  | some idx => exact absurd (buildIndex_some rows order name idx hm).1 h

theorem resolveRelation_agree (rows : List ColumnRow) (o₁ o₂ : List String)
    (h₁ : IsRangeOrder (groupRows rows) o₁) (h₂ : IsRangeOrder (groupRows rows) o₂)
    (fk : FkRow) :
    (resolveRelation (buildIndex (groupRows rows) o₁).index_map fk).map
        (namedRelation (buildIndex (groupRows rows) o₁).tables)
      = (resolveRelation (buildIndex (groupRows rows) o₂).index_map fk).map
        (namedRelation (buildIndex (groupRows rows) o₂).tables) := by
  unfold resolveRelation
  by_cases hT1 : hasTable rows fk.fromTable
  · obtain ⟨j1, hj1, ht1⟩ := buildIndex_get rows o₁ h₁ _ hT1
    obtain ⟨j2, hj2, ht2⟩ := buildIndex_get rows o₂ h₂ _ hT1
    simp only [hj1, hj2]
    cases mapGet (columnIndex (columnsOf fk.fromTable rows)) fk.fromColumn with
    | none => rfl
    | some c1 =>
      simp only []
      by_cases hT2 : hasTable rows fk.toTable
      · obtain ⟨k1, hk1, hu1⟩ := buildIndex_get rows o₁ h₁ _ hT2
        obtain ⟨k2, hk2, hu2⟩ := buildIndex_get rows o₂ h₂ _ hT2
        simp only [hk1, hk2]
        cases mapGet (columnIndex (columnsOf fk.toTable rows)) fk.toColumn with
        | none => rfl
        | some c2 =>
          simp only [Except.map, namedRelation, ht1, ht2, hu1, hu2]
      · simp only [buildIndex_lookup_none rows _ _ hT2]
        rfl
  · simp only [buildIndex_lookup_none rows _ _ hT1]
    rfl

theorem resolveRelations_agree (im₁ im₂ : GoMap table_col_index) (t₁ t₂ : List table)
    (fks : List FkRow)
    (h : ∀ fk, (resolveRelation im₁ fk).map (namedRelation t₁)
      = (resolveRelation im₂ fk).map (namedRelation t₂))
    (acc₁ acc₂ : List relation)
    (hacc : acc₁.map (namedRelation t₁) = acc₂.map (namedRelation t₂)) :
    (resolveRelations im₁ fks acc₁).map (List.map (namedRelation t₁))
      = (resolveRelations im₂ fks acc₂).map (List.map (namedRelation t₂)) := by
  induction fks generalizing acc₁ acc₂ with
  | nil => simp [resolveRelations, Outcome.map, hacc]
  | cons fk rest ih =>
    have hfk := h fk
    unfold resolveRelations
    cases h1 : resolveRelation im₁ fk with
    | error m1 =>
      cases h2 : resolveRelation im₂ fk with
      | error m2 =>
        rw [h1, h2] at hfk
        simp only [Except.map, Except.error.injEq] at hfk
        simp [Outcome.map, hfk]
      | ok r2 =>
        rw [h1, h2] at hfk
        simp [Except.map] at hfk
    | ok r1 =>
      cases h2 : resolveRelation im₂ fk with
      | error m2 =>
        rw [h1, h2] at hfk
        simp [Except.map] at hfk
      | ok r2 =>
        rw [h1, h2] at hfk
        simp only [Except.map, Except.ok.injEq] at hfk
        apply ih
        simp [hacc, hfk]

theorem buildSchema_map_namedRelations (order : List String) (rows : List ColumnRow)
    (fks : List FkRow) :
    (buildSchema order rows fks).map namedRelations
      = (resolveRelations (buildIndex (groupRows rows) order).index_map fks []).map
          (List.map (namedRelation (buildIndex (groupRows rows) order).tables)) := by
  simp only [buildSchema]
  cases resolveRelations (buildIndex (groupRows rows) order).index_map fks [] <;> rfl

theorem forall₂_exists_left {α β : Type} {P : α → β → Prop} {l₁ : List α} {l₂ : List β}
    (h : List.Forall₂ P l₁ l₂) : ∀ b ∈ l₂, ∃ a, P a b := by
  induction h with
  | nil => simp
  | cons hab _ ih =>
    intro b hb
    simp only [List.mem_cons] at hb
    rcases hb with rfl | hb
    · exact ⟨_, hab⟩
    · exact ih b hb

/-! ## The builder: claims -/

/-- C3: when some foreign-key row names a table that does not occur in the
column rows, or a column that is not a column of the named table, the builder
fails: it panics, returns no schema, and so does `fetchSchemaConnected` on a
connection that delivers these rows; no row is dropped silently. -/
theorem buildSchema_fails_on_absent_name (order : List String) (rows : List ColumnRow)
    (fks : List FkRow)
    (h : ∃ fk ∈ fks, ¬ hasTable rows fk.fromTable ∨ ¬ hasTable rows fk.toTable
      ∨ ¬ hasColumn rows fk.fromTable fk.fromColumn ∨ ¬ hasColumn rows fk.toTable fk.toColumn) :
    (∃ msg, buildSchema order rows fks = .panic msg)
    ∧ (buildSchema order rows fks).value? = none
    ∧ ∀ (conn : Conn) (schemaName : String), schemaValidRegex schemaName = true →
        conn.query (columnQuery schemaName) = .ok (rows.map ColumnRow.raw) →
        conn.query (fkQuery schemaName) = .ok (fks.map FkRow.raw) →
        (fetchSchemaConnected conn order schemaName).outcome.value? = none := by
  have hpanic : ∃ msg, buildSchema order rows fks = .panic msg := by
    obtain ⟨fk, hmem, hbad⟩ := h
    have hnp : ¬ namesPresent rows fk := by
      rintro ⟨a, b, c, d⟩
      rcases hbad with hb | hb | hb | hb
      · exact hb a
      · exact hb c
      · exact hb b
      · exact hb d
    obtain ⟨msg, hmsg⟩ := resolveRelations_panic
      (buildIndex (groupRows rows) order).index_map fks []
      ⟨fk, hmem, resolveRelation_error rows order fk hnp⟩
    exact ⟨msg, by simp only [buildSchema, hmsg]⟩
  obtain ⟨msg, hmsg⟩ := hpanic
  refine ⟨⟨msg, hmsg⟩, by rw [hmsg]; rfl, ?_⟩
  intro conn schemaName hname hq1 hq2
  rw [fetchSchemaConnected_eq_buildSchema conn order schemaName rows fks hname hq1 hq2, hmsg]
  rfl

/-- C3, at the example rows with a foreign key to the column `users.nope`. -/
theorem buildSchema_fails_on_absent_name_witness :
    (∃ msg, buildSchema ["users", "orders"] exampleColumnRows
        [⟨"fk", "orders", "user_id", "users", "nope"⟩] = .panic msg)
    ∧ (buildSchema ["users", "orders"] exampleColumnRows
        [⟨"fk", "orders", "user_id", "users", "nope"⟩]).value? = none :=
  ⟨(buildSchema_fails_on_absent_name ["users", "orders"] exampleColumnRows
      [⟨"fk", "orders", "user_id", "users", "nope"⟩]
      ⟨⟨"fk", "orders", "user_id", "users", "nope"⟩, by simp, by decide⟩).1,
   (buildSchema_fails_on_absent_name ["users", "orders"] exampleColumnRows
      [⟨"fk", "orders", "user_id", "users", "nope"⟩]
      ⟨⟨"fk", "orders", "user_id", "users", "nope"⟩, by simp, by decide⟩).2.1⟩

/-- C4: when every foreign-key row names only tables and columns present in
the column rows, the builder returns a schema with one relation per
foreign-key row, in row order, and the indices of the i-th relation lead back
through the tables to the names of the i-th row. -/
theorem buildSchema_relations_resolve (order : List String) (rows : List ColumnRow)
    (fks : List FkRow) (hord : IsRangeOrder (groupRows rows) order)
    (hp : ∀ fk ∈ fks, namesPresent rows fk) :
    ∃ s, buildSchema order rows fks = .ok s
      ∧ s.relations.length = fks.length
      ∧ List.Forall₂ (resolvesTo s.tables) fks s.relations := by
  obtain ⟨rs, hrs, hall⟩ := resolveRelations_ok (buildIndex (groupRows rows) order).index_map
    fks [] (resolvesTo (buildIndex (groupRows rows) order).tables)
    (fun fk hfk => resolveRelation_ok rows order hord fk (hp fk hfk))
  refine ⟨⟨(buildIndex (groupRows rows) order).tables, rs⟩, ?_, hall.length_eq.symm, hall⟩
  rw [buildSchema_ok_iff]
  exact ⟨rfl, by simpa using hrs⟩

/-- C4, at the example of the specification, tables visited as `orders`, `users`. -/
theorem buildSchema_relations_resolve_witness :
    ∃ s, buildSchema ["orders", "users"] exampleColumnRows exampleFkRows = .ok s
      ∧ s.relations.length = exampleFkRows.length
      ∧ List.Forall₂ (resolvesTo s.tables) exampleFkRows s.relations :=
  buildSchema_relations_resolve ["orders", "users"] exampleColumnRows exampleFkRows
    (by decide) (by decide)

/-- C5: the schema built from the column rows has, for every table name of the
rows, a table of that name; the columns of each table are the
(column, type) pairs of the rows of that table, in row order, duplicates kept;
the column counts add up to the number of rows. -/
theorem buildSchema_columns_in_row_order (order : List String) (rows : List ColumnRow)
    (hord : IsRangeOrder (groupRows rows) order) :
    (∃ s, buildSchema order rows [] = .ok s)
    ∧ ∀ (fks : List FkRow) (s : schema), buildSchema order rows fks = .ok s →
        (∀ t, hasTable rows t → ∃ tb ∈ s.tables, tb.name = t ∧ tb.columns = columnsOf t rows)
        ∧ (∀ tb ∈ s.tables, hasTable rows tb.name ∧ tb.columns = columnsOf tb.name rows)
        ∧ (s.tables.map (fun tb => tb.columns.length)).sum = rows.length := by
  refine ⟨⟨⟨(buildIndex (groupRows rows) order).tables, []⟩, rfl⟩, ?_⟩
  intro fks s hs
  rw [buildSchema_ok_iff] at hs
  rw [hs.1, buildIndex_tables rows order hord]
  refine ⟨?_, ?_, sum_columns_length rows order hord⟩
  · intro t ht
    exact ⟨⟨t, columnsOf t rows⟩, List.mem_map.2 ⟨t, (hord.hasTable t).2 ht, rfl⟩, rfl, rfl⟩
  · intro tb htb
    obtain ⟨k, hk, rfl⟩ := List.mem_map.1 htb
    exact ⟨(hord.hasTable k).1 hk, rfl⟩

/-- C5, at the example rows, tables visited as `orders`, `users`. -/
theorem buildSchema_columns_in_row_order_witness :
    (∃ s, buildSchema ["orders", "users"] exampleColumnRows [] = .ok s)
    ∧ ∀ (fks : List FkRow) (s : schema),
        buildSchema ["orders", "users"] exampleColumnRows fks = .ok s →
        (∀ t, hasTable exampleColumnRows t →
          ∃ tb ∈ s.tables, tb.name = t ∧ tb.columns = columnsOf t exampleColumnRows)
        ∧ (∀ tb ∈ s.tables, hasTable exampleColumnRows tb.name
            ∧ tb.columns = columnsOf tb.name exampleColumnRows)
        ∧ (s.tables.map (fun tb => tb.columns.length)).sum = exampleColumnRows.length :=
  buildSchema_columns_in_row_order ["orders", "users"] exampleColumnRows (by decide)

/-- C6, counterexample: on the example rows `range` may visit `orders` before
`users`; the schema then lists `orders` first although the first row names
`users`. -/
theorem tables_first_seen_order_counterexample :
    IsRangeOrder (groupRows exampleColumnRows) ["orders", "users"]
    ∧ buildSchema ["orders", "users"] exampleColumnRows []
        = .ok ⟨[ordersTable, usersTable], []⟩
    ∧ ¬ tablesInFirstSeenOrder exampleColumnRows ⟨[ordersTable, usersTable], []⟩ := by
  refine ⟨by decide, by decide, by decide⟩

/-- C6, amended: the tables of the schema appear in the order in which `range`
visits `mtables`: their names are the range order, which lists each table name
of the column rows exactly once, and one table precedes another in the schema
exactly when `range` visits it first. -/
theorem buildSchema_tables_in_range_order (order : List String) (rows : List ColumnRow)
    (fks : List FkRow) (s : schema) (hord : IsRangeOrder (groupRows rows) order)
    (hs : buildSchema order rows fks = .ok s) :
    s.tables.map table.name = order
    ∧ order.Nodup
    ∧ (∀ t, t ∈ order ↔ hasTable rows t)
    ∧ ∀ a b, precedes (s.tables.map table.name) a b ↔ precedes order a b := by
  rw [buildSchema_ok_iff] at hs
  have hnames : s.tables.map table.name = order := by
    rw [hs.1, buildIndex_tables_names rows order hord]
  refine ⟨hnames, hord.nodup, fun t => hord.hasTable t, ?_⟩
  intro a b
  rw [hnames]

/-- C6 amended, at the example rows visited as `orders`, `users`. -/
theorem buildSchema_tables_in_range_order_witness :
    (ordersTable :: [usersTable]).map table.name = ["orders", "users"]
    ∧ ["orders", "users"].Nodup
    ∧ (∀ t, t ∈ ["orders", "users"] ↔ hasTable exampleColumnRows t)
    ∧ ∀ a b, precedes ((ordersTable :: [usersTable]).map table.name) a b
        ↔ precedes ["orders", "users"] a b :=
  buildSchema_tables_in_range_order ["orders", "users"] exampleColumnRows []
    ⟨[ordersTable, usersTable], []⟩ (by decide) (by decide)

/-- C7, counterexample: on the example rows the two range orders give two
different schemas: the tables are swapped and the relation holds other table
indices. -/
theorem buildSchema_two_runs_counterexample :
    IsRangeOrder (groupRows exampleColumnRows) ["users", "orders"]
    ∧ IsRangeOrder (groupRows exampleColumnRows) ["orders", "users"]
    ∧ buildSchema ["users", "orders"] exampleColumnRows exampleFkRows
        = .ok ⟨[usersTable, ordersTable], [⟨"fk_orders_user", 1, 1, 0, 0⟩]⟩
    ∧ buildSchema ["orders", "users"] exampleColumnRows exampleFkRows
        = .ok ⟨[ordersTable, usersTable], [⟨"fk_orders_user", 0, 1, 1, 0⟩]⟩
    ∧ buildSchema ["users", "orders"] exampleColumnRows exampleFkRows
        ≠ buildSchema ["orders", "users"] exampleColumnRows exampleFkRows := by
  refine ⟨by decide, by decide, by decide, by decide, by decide⟩

/-- C7, amended: two runs of the builder on the same rows agree up to the
order in which `range` visits `mtables`: both fail with the same message or
both return; the two table sequences are permutations of each other; the
relations, read back through the tables, are the same (same names, same
tables selected, same column indices); with the same range order the two
schemas are equal. -/
theorem buildSchema_deterministic_up_to_range_order (o₁ o₂ : List String)
    (rows : List ColumnRow) (fks : List FkRow)
    (h₁ : IsRangeOrder (groupRows rows) o₁) (h₂ : IsRangeOrder (groupRows rows) o₂) :
    (buildSchema o₁ rows fks).map namedRelations = (buildSchema o₂ rows fks).map namedRelations
    ∧ (∀ s₁ s₂, buildSchema o₁ rows fks = .ok s₁ → buildSchema o₂ rows fks = .ok s₂ →
        s₁.tables.Perm s₂.tables)
    ∧ (o₁ = o₂ → buildSchema o₁ rows fks = buildSchema o₂ rows fks) := by
  refine ⟨?_, ?_, fun h => by rw [h]⟩
  · rw [buildSchema_map_namedRelations, buildSchema_map_namedRelations]
    exact resolveRelations_agree _ _ _ _ fks (resolveRelation_agree rows o₁ o₂ h₁ h₂) [] [] rfl
  · intro s₁ s₂ hs₁ hs₂
    rw [buildSchema_ok_iff] at hs₁ hs₂
    rw [hs₁.1, hs₂.1, buildIndex_tables rows o₁ h₁, buildIndex_tables rows o₂ h₂]
    exact (h₁.trans h₂.symm).map _

/-- C7 amended, at the two range orders of the example rows. -/
theorem buildSchema_deterministic_up_to_range_order_witness :
    (buildSchema ["users", "orders"] exampleColumnRows exampleFkRows).map namedRelations
      = (buildSchema ["orders", "users"] exampleColumnRows exampleFkRows).map namedRelations
    ∧ (∀ s₁ s₂, buildSchema ["users", "orders"] exampleColumnRows exampleFkRows = .ok s₁ →
        buildSchema ["orders", "users"] exampleColumnRows exampleFkRows = .ok s₂ →
        s₁.tables.Perm s₂.tables)
    ∧ (["users", "orders"] = ["orders", "users"] →
        buildSchema ["users", "orders"] exampleColumnRows exampleFkRows
          = buildSchema ["orders", "users"] exampleColumnRows exampleFkRows) :=
  buildSchema_deterministic_up_to_range_order ["users", "orders"] ["orders", "users"]
    exampleColumnRows exampleFkRows (by decide) (by decide)

/-- C8: every schema the builder returns satisfies the schema invariants: the
table names are pairwise distinct, and the table and column indices of every
relation are in range. -/
theorem buildSchema_invariant (order : List String) (rows : List ColumnRow)
    (fks : List FkRow) (s : schema) (hord : IsRangeOrder (groupRows rows) order)
    (hs : buildSchema order rows fks = .ok s) : schemaInvariant s := by
  rw [buildSchema_ok_iff] at hs
  obtain ⟨ht, hr⟩ := hs
  constructor
  · rw [ht, buildIndex_tables_names rows order hord]
    exact hord.nodup
  · obtain ⟨rs, hrs, hall⟩ := resolveRelations_ok_inv _ _ _ _ hr
    simp only [List.nil_append] at hrs
    subst hrs
    intro r hmem
    rw [ht]
    obtain ⟨fk, hfk⟩ := forall₂_exists_left hall r hmem
    exact resolvesTo_inRange _ fk r (resolveRelation_ok_inv rows order hord fk r hfk).2

/-- C8, at the example of the specification, tables visited as `orders`, `users`. -/
theorem buildSchema_invariant_witness :
    schemaInvariant ⟨[ordersTable, usersTable], [⟨"fk_orders_user", 0, 1, 1, 0⟩]⟩ :=
  buildSchema_invariant ["orders", "users"] exampleColumnRows exampleFkRows
    ⟨[ordersTable, usersTable], [⟨"fk_orders_user", 0, 1, 1, 0⟩]⟩ (by decide) (by decide)

/-! ## The graph library: lemmas -/

theorem modifyAt_length {α : Type} (f : α → α) (xs : List α) (i : Nat) :
    (modifyAt f xs i).length = xs.length := by
  induction xs generalizing i with
  | nil => rfl
  | cons x rest ih =>
    cases i with
    | zero => rfl
    | succ i' => simp [modifyAt, ih]

theorem modifyAt_get? {α : Type} (f : α → α) (xs : List α) (i j : Nat) :
    (modifyAt f xs i).get? j = if j = i then (xs.get? j).map f else xs.get? j := by
  induction xs generalizing i j with
  | nil => simp [modifyAt]
  | cons x rest ih =>
    cases i with
    | zero =>
      cases j with
      | zero => simp [modifyAt]
      | succ j' => simp [modifyAt]
    | succ i' =>
      cases j with
      | zero => simp [modifyAt]
      | succ j' =>
        simp only [modifyAt, List.get?_cons_succ, ih]
        simp

theorem modifyAt_append_length {α : Type} (f : α → α) (xs : List α) (x : α) :
    modifyAt f (xs ++ [x]) xs.length = xs ++ [f x] := by
  induction xs with
  | nil => rfl
  | cons y rest ih => simp [modifyAt, ih]

theorem mem_modifyAt {α : Type} (f : α → α) (xs : List α) (i : Nat) (y : α)
    (h : y ∈ modifyAt f xs i) : y ∈ xs ∨ ∃ x, xs.get? i = some x ∧ y = f x := by
  induction xs generalizing i with
  | nil => simp [modifyAt] at h
  | cons x rest ih =>
    cases i with
    | zero =>
      simp only [modifyAt, List.mem_cons] at h
      rcases h with rfl | h
      · exact Or.inr ⟨x, by simp, rfl⟩
      · exact Or.inl (by simp [h])
    | succ i' =>
      simp only [modifyAt, List.mem_cons] at h
      rcases h with rfl | h
      · exact Or.inl (by simp)
      · rcases ih i' h with h1 | ⟨x', hx', rfl⟩
        · exact Or.inl (by simp [h1])
        · exact Or.inr ⟨x', by simpa using hx', rfl⟩

/-! ## The node loop: lemmas -/

theorem nodeStep_fresh (pre : List table) (edges : List Edge) (t : table)
    (h : t.name ∉ pre.map table.name) :
    nodeStep ⟨⟨pre.map nodeOf, edges⟩, List.range pre.length⟩ t
      = ⟨⟨(pre ++ [t]).map nodeOf, edges⟩, List.range (pre ++ [t]).length⟩ := by
  have hidx : (pre.map nodeOf).findIdx (fun n => n.name == t.name) = (pre.map nodeOf).length := by
    apply List.findIdx_eq_length_of_false
    intro n hn
    obtain ⟨t', ht', rfl⟩ := List.mem_map.1 hn
    simp only [nodeOf, beq_eq_false_iff_ne, ne_eq]
    intro heq
    exact h (List.mem_map.2 ⟨t', ht', heq⟩)
  have hlen : (pre.map nodeOf).length = pre.length := List.length_map _ _
  simp only [nodeStep, Graph.CreateNode, hidx, lt_irrefl, if_false, Graph.setNodeAttr,
    modifyAt_append_length]
  simp only [hlen, List.map_append, List.map_cons, List.map_nil, List.length_append,
    List.length_singleton, List.range_succ, nodeOf, nodeAttrs, mapSet]
  simp

theorem foldl_nodeStep (pre rest : List table) (edges : List Edge)
    (h : ((pre ++ rest).map table.name).Nodup) :
    rest.foldl nodeStep ⟨⟨pre.map nodeOf, edges⟩, List.range pre.length⟩
      = ⟨⟨(pre ++ rest).map nodeOf, edges⟩, List.range (pre ++ rest).length⟩ := by
  induction rest generalizing pre with
  | nil => simp
  | cons t rest ih =>
    have hfresh : t.name ∉ pre.map table.name := by
      simp only [List.map_append, List.map_cons, List.nodup_append, List.nodup_cons] at h
      intro hm
      exact h.2.2 hm (by simp)
    rw [List.foldl_cons, nodeStep_fresh pre edges t hfresh]
    have h' : (((pre ++ [t]) ++ rest).map table.name).Nodup := by simpa using h
    have := ih (pre ++ [t]) h'
    simpa using this

/-- With distinct table names the node loop creates one node per table, in
table order, and the slice `nodes` holds them in that order. -/
theorem nodeLoop_eq (tables : List table) (h : (tables.map table.name).Nodup) :
    nodeLoop tables = ⟨⟨tables.map nodeOf, []⟩, List.range tables.length⟩ := by
  have := foldl_nodeStep [] tables [] (by simpa using h)
  simpa [nodeLoop] using this

/-- Whatever the table names, the slice `nodes` has one entry per table. -/
theorem foldl_nodeStep_nodes_length (tables : List table) (st : NodeState) :
    (tables.foldl nodeStep st).nodes.length = st.nodes.length + tables.length := by
  induction tables generalizing st with
  | nil => simp
  | cons t rest ih =>
    rw [List.foldl_cons, ih]
    simp only [nodeStep, List.length_append, List.length_cons, List.length_nil]
    omega

theorem nodeLoop_nodes_length (tables : List table) :
    (nodeLoop tables).nodes.length = tables.length := by
  simp [nodeLoop, foldl_nodeStep_nodes_length]

/-! ## The edge loop: lemmas -/

theorem findIdx_le {α : Type} (p : α → Bool) (xs : List α) : xs.findIdx p ≤ xs.length :=
  List.findIdx_le_length p

theorem modifyAt_modifyAt {α : Type} (f g : α → α) (xs : List α) (i : Nat) :
    modifyAt f (modifyAt g xs i) i = modifyAt (f ∘ g) xs i := by
  induction xs generalizing i with
  | nil => rfl
  | cons x rest ih =>
    cases i with
    | zero => rfl
    | succ i' => simp [modifyAt, ih]

theorem setEdgeAttrs_carries (rel : relation) (ed : Edge) :
    edgeCarries (setEdgeAttrs rel ed) rel := by
  unfold edgeCarries setEdgeAttrs attrOf
  refine ⟨?_, ?_, ?_⟩
  · rw [mapGet_mapSet_ne _ _ _ _ (by decide), mapGet_mapSet_ne _ _ _ _ (by decide),
      mapGet_mapSet_self]
    rfl
  · rw [mapGet_mapSet_ne _ _ _ _ (by decide), mapGet_mapSet_self]
    rfl
  · rw [mapGet_mapSet_self]
    rfl

/-- One round of the edge loop in closed form: the edge is looked up by tail,
head and the name `e`, appended when there is none, and gets the three
attributes of the relation. -/
theorem edgeStep_eq (nodes : List Nat) (g : Graph) (rel : relation) (t h : Nat)
    (hfrom : goIndex nodes rel.fromTable = some t) (hto : goIndex nodes rel.toTable = some h) :
    edgeStep nodes g rel
      = .ok (⟨g.nodes, modifyAt (setEdgeAttrs rel)
            (if g.edges.findIdx (fun e => e.tail == t && e.head == h && e.name == "e")
                < g.edges.length then g.edges else g.edges ++ [⟨"e", t, h, []⟩])
            (g.edges.findIdx (fun e => e.tail == t && e.head == h && e.name == "e"))⟩,
          g.edges.findIdx (fun e => e.tail == t && e.head == h && e.name == "e")) := by
  simp only [edgeStep, hfrom, hto, Graph.CreateEdge, Graph.setEdgeAttr]
  by_cases hlt : g.edges.findIdx (fun e => e.tail == t && e.head == h && e.name == "e")
      < g.edges.length
  · simp only [hlt, if_true, modifyAt_modifyAt]
    rfl
  · have heq : g.edges.findIdx (fun e => e.tail == t && e.head == h && e.name == "e")
        = g.edges.length := by
      have := findIdx_le (fun e : Edge => e.tail == t && e.head == h && e.name == "e") g.edges
      omega
    simp only [heq, lt_irrefl, if_false, modifyAt_modifyAt]
    rfl

/-- What one round of the edge loop does to the edge table. -/
theorem edgeStep_spec (nodes : List Nat) (g : Graph) (rel : relation) (t h : Nat)
    (hfrom : goIndex nodes rel.fromTable = some t) (hto : goIndex nodes rel.toTable = some h) :
    ∃ g' e, edgeStep nodes g rel = .ok (g', e) ∧ g'.nodes = g.nodes
      ∧ (∃ ed, g'.edges.get? e = some ed ∧ ed.tail = t ∧ ed.head = h ∧ ed.name = "e"
          ∧ edgeCarries ed rel)
      ∧ (∀ j ed, g.edges.get? j = some ed →
          ∃ ed', g'.edges.get? j = some ed' ∧ ed'.tail = ed.tail ∧ ed'.head = ed.head
            ∧ ed'.name = ed.name ∧ (¬ (ed.tail = t ∧ ed.head = h) → ed' = ed))
      ∧ (∀ x ∈ g'.edges, x ∈ g.edges ∨ g'.edges.get? e = some x) := by
  refine ⟨_, _, edgeStep_eq nodes g rel t h hfrom hto, rfl, ?_, ?_, ?_⟩
  · -- the edge of this round
    simp only [modifyAt_get?, if_true]
    by_cases hlt : g.edges.findIdx (fun e => e.tail == t && e.head == h && e.name == "e")
        < g.edges.length
    · have hp := List.findIdx_getElem (w := hlt)
      simp only [Bool.and_eq_true, beq_iff_eq] at hp
      refine ⟨setEdgeAttrs rel (g.edges[g.edges.findIdx _]), ?_, hp.1.1, hp.1.2, hp.2,
        setEdgeAttrs_carries _ _⟩
      simp only [hlt, if_true, List.get?_eq_getElem?, List.getElem?_eq_getElem hlt,
        Option.map_some']
    · have heq : g.edges.findIdx (fun e => e.tail == t && e.head == h && e.name == "e")
          = g.edges.length := by
        have := findIdx_le (fun e : Edge => e.tail == t && e.head == h && e.name == "e") g.edges
        omega
      refine ⟨setEdgeAttrs rel ⟨"e", t, h, []⟩, ?_, rfl, rfl, rfl, setEdgeAttrs_carries _ _⟩
      simp only [hlt, if_false, heq, List.get?_eq_getElem?]
      simp
  · -- the other edges
    intro j ed hj
    have hjlt : j < g.edges.length := by
      rw [List.get?_eq_some] at hj
      exact hj.1
    have hold : (if g.edges.findIdx (fun e => e.tail == t && e.head == h && e.name == "e")
        < g.edges.length then g.edges else g.edges ++ [⟨"e", t, h, []⟩]).get? j = some ed := by
      split
      · exact hj
      · simp only [List.get?_eq_getElem?] at hj ⊢
        rw [List.getElem?_append_left hjlt]
        exact hj
    simp only [modifyAt_get?, hold]
    by_cases hje : j = g.edges.findIdx (fun e => e.tail == t && e.head == h && e.name == "e")
    · refine ⟨setEdgeAttrs rel ed, by simp [hje.symm], rfl, rfl, rfl, ?_⟩
      intro hne
      exfalso
      apply hne
      have hlt : g.edges.findIdx (fun e => e.tail == t && e.head == h && e.name == "e")
          < g.edges.length := hje ▸ hjlt
      have hp := List.findIdx_getElem (w := hlt)
      simp only [Bool.and_eq_true, beq_iff_eq] at hp
      have hed : g.edges[g.edges.findIdx (fun e => e.tail == t && e.head == h && e.name == "e")]
          = ed := by
        simp only [List.get?_eq_getElem?] at hj
        subst hje
        rw [List.getElem?_eq_getElem hjlt] at hj
        exact Option.some.inj hj
      rw [hed] at hp
      exact hp.1
    · exact ⟨ed, by simp [hje], rfl, rfl, rfl, fun _ => rfl⟩
  · -- every edge afterwards is an old one or the edge of this round
    intro x hx
    obtain ⟨j, hj⟩ := List.mem_iff_get?.1 hx
    by_cases hje : j = g.edges.findIdx (fun e => e.tail == t && e.head == h && e.name == "e")
    · right
      subst hje
      exact hj
    · left
      simp only [modifyAt_get?, hje, if_false] at hj
      split at hj
      · exact List.mem_iff_get?.2 ⟨j, hj⟩
      · rename_i hlt
        have heq : g.edges.findIdx (fun e => e.tail == t && e.head == h && e.name == "e")
            = g.edges.length := by
          have := findIdx_le (fun e : Edge => e.tail == t && e.head == h && e.name == "e") g.edges
          omega
        rw [heq] at hje
        have hjlt : j < g.edges.length := by
          have hb : j < (g.edges ++ [(⟨"e", t, h, []⟩ : Edge)]).length := by
            rw [List.get?_eq_some] at hj
            exact hj.1
          simp only [List.length_append, List.length_singleton] at hb
          omega
        simp only [List.get?_eq_getElem?] at hj
        rw [List.getElem?_append_left hjlt] at hj
        exact List.mem_iff_get?.2 ⟨j, by simpa using hj⟩

theorem goIndex_isSome_iff {α : Type} (xs : List α) (i : Int) :
    (goIndex xs i).isSome ↔ 0 ≤ i ∧ i < xs.length := by
  constructor
  · intro h
    obtain ⟨x, hx⟩ := Option.isSome_iff_exists.1 h
    exact goIndex_eq_some hx
  · rintro ⟨h0, h1⟩
    unfold goIndex
    have hlt : i.toNat < xs.length := by omega
    simp only [not_lt.2 h0, if_false, List.get?_eq_getElem?, List.getElem?_eq_getElem hlt,
      Option.isSome_some]

theorem edgeStep_panic (nodes : List Nat) (g : Graph) (rel : relation)
    (h : ¬ tableIndicesValid nodes rel) : ∃ msg, edgeStep nodes g rel = .panic msg := by
  unfold tableIndicesValid at h
  unfold edgeStep
  cases h1 : goIndex nodes rel.fromTable with
  | none => exact ⟨_, rfl⟩
  | some t =>
    simp only []
    cases h2 : goIndex nodes rel.toTable with
    | none => exact ⟨_, rfl⟩
    | some hd => simp [h1, h2] at h

theorem tableIndicesValid_some {nodes : List Nat} {r : relation}
    (h : tableIndicesValid nodes r) :
    ∃ t hd, goIndex nodes r.fromTable = some t ∧ goIndex nodes r.toTable = some hd := by
  obtain ⟨h1, h2⟩ := h
  obtain ⟨t, ht⟩ := Option.isSome_iff_exists.1 h1
  obtain ⟨hd, hhd⟩ := Option.isSome_iff_exists.1 h2
  exact ⟨t, hd, ht, hhd⟩

/-- A relation whose table index is out of range makes the edge loop panic. -/
theorem edgeLoop_panic (nodes : List Nat) (rels : List relation) (g : Graph) (acc : List Nat)
    (h : ∃ r ∈ rels, ¬ tableIndicesValid nodes r) :
    ∃ msg, edgeLoop nodes rels g acc = .panic msg := by
  induction rels generalizing g acc with
  | nil => simp at h
  | cons rel rest ih =>
    unfold edgeLoop
    by_cases hv : tableIndicesValid nodes rel
    · obtain ⟨t, hd, ht, hhd⟩ := tableIndicesValid_some hv
      rw [edgeStep_eq nodes g rel t hd ht hhd]
      apply ih
      obtain ⟨r, hr, hbad⟩ := h
      simp only [List.mem_cons] at hr
      rcases hr with rfl | hr
      · exact absurd hv hbad
      · exact ⟨r, hr, hbad⟩
    · obtain ⟨msg, hmsg⟩ := edgeStep_panic nodes g rel hv
      rw [hmsg]
      exact ⟨msg, rfl⟩

/-- The edge loop on relations whose table indices are in range: it returns;
the node table is untouched; every edge present before keeps its place, tail,
head and name, and is unchanged when no relation joins its two nodes; the
edge of the `i`-th relation joins the nodes of its two tables and carries its
label and ports unless a later relation joins the same two nodes; every edge
afterwards was there before or is the edge of a relation. -/
theorem edgeLoop_spec (nodes : List Nat) (rels : List relation) (g : Graph) (acc : List Nat)
    (hvalid : ∀ r ∈ rels, tableIndicesValid nodes r) :
    ∃ g' hs, edgeLoop nodes rels g acc = .ok (g', acc ++ hs) ∧ g'.nodes = g.nodes
      ∧ hs.length = rels.length
      ∧ (∀ j ed, g.edges.get? j = some ed →
          ∃ ed', g'.edges.get? j = some ed' ∧ ed'.tail = ed.tail ∧ ed'.head = ed.head
            ∧ ed'.name = ed.name
            ∧ ((∀ r ∈ rels, ¬ (goIndex nodes r.fromTable = some ed.tail
                  ∧ goIndex nodes r.toTable = some ed.head)) → ed' = ed))
      ∧ (∀ i r, rels.get? i = some r →
          ∃ e ed, hs.get? i = some e ∧ g'.edges.get? e = some ed
            ∧ goIndex nodes r.fromTable = some ed.tail ∧ goIndex nodes r.toTable = some ed.head
            ∧ ed.name = "e"
            ∧ ((∀ j r', i < j → rels.get? j = some r' →
                  ¬ (goIndex nodes r'.fromTable = some ed.tail
                    ∧ goIndex nodes r'.toTable = some ed.head)) → edgeCarries ed r))
      ∧ (∀ x ∈ g'.edges, x ∈ g.edges ∨ ∃ r ∈ rels, goIndex nodes r.fromTable = some x.tail
            ∧ goIndex nodes r.toTable = some x.head ∧ x.name = "e" ∧ edgeCarries x r) := by
  induction rels generalizing g acc with
  | nil =>
    refine ⟨g, [], by simp [edgeLoop], rfl, rfl, ?_, ?_, ?_⟩
    · intro j ed hj
      exact ⟨ed, hj, rfl, rfl, rfl, fun _ => rfl⟩
    · intro i r hr
      simp at hr
    · intro x hx
      exact Or.inl hx
  | cons rel rest ih =>
    obtain ⟨t, hd, ht, hhd⟩ := tableIndicesValid_some (hvalid rel (by simp))
    obtain ⟨g1, e1, hstep, hnodes1, ⟨ed1, hed1, htail1, hhead1, hname1, hcar1⟩, hkeep1, hmem1⟩ :=
      edgeStep_spec nodes g rel t hd ht hhd
    obtain ⟨g', hs, hloop, hnodes, hlen, hstab, hP, hinv⟩ :=
      ih g1 (acc ++ [e1]) (fun r hr => hvalid r (by simp [hr]))
    refine ⟨g', e1 :: hs, ?_, by rw [hnodes, hnodes1], by simp [hlen], ?_, ?_, ?_⟩
    · unfold edgeLoop
      rw [hstep]
      simpa using hloop
    · -- edges present before
      intro j ed hj
      obtain ⟨eda, ha, hta, hha, hna, hsame_a⟩ := hkeep1 j ed hj
      obtain ⟨edb, hb, htb, hhb, hnb, hsame_b⟩ := hstab j eda ha
      refine ⟨edb, hb, by rw [htb, hta], by rw [hhb, hha], by rw [hnb, hna], ?_⟩
      intro hno
      have h1 : eda = ed := by
        apply hsame_a
        rintro ⟨h1, h2⟩
        exact hno rel (by simp) ⟨by rw [ht, h1], by rw [hhd, h2]⟩
      rw [hsame_b, h1]
      intro r hr
      rw [h1]
      exact hno r (by simp [hr])
    · -- the edge of the i-th relation
      intro i r hr
      cases i with
      | zero =>
        simp only [List.get?_cons_zero, Option.some.injEq] at hr
        subst hr
        obtain ⟨edb, hb, htb, hhb, hnb, hsame_b⟩ := hstab e1 ed1 hed1
        refine ⟨e1, edb, by simp, hb, by rw [htb, htail1]; exact ht,
          by rw [hhb, hhead1]; exact hhd, by rw [hnb, hname1], ?_⟩
        intro hno
        have : edb = ed1 := by
          apply hsame_b
          intro r' hr'
          obtain ⟨j', hj'⟩ := List.mem_iff_get?.1 hr'
          have := hno (j' + 1) r' (by omega) (by simpa using hj')
          rw [htb, hhb] at this
          exact this
        rw [this]
        exact hcar1
      | succ i' =>
        simp only [List.get?_cons_succ] at hr
        obtain ⟨e, ed, he, hed, hf, hto, hn, hcar⟩ := hP i' r hr
        refine ⟨e, ed, by simpa using he, hed, hf, hto, hn, ?_⟩
        intro hno
        apply hcar
        intro j r' hij hj
        exact hno (j + 1) r' (by omega) (by simpa using hj)
    · -- every edge afterwards
      intro x hx
      rcases hinv x hx with hx1 | ⟨r, hr, h1, h2, h3, h4⟩
      · rcases hmem1 x hx1 with hold | hnew
        · exact Or.inl hold
        · rw [hed1] at hnew
          cases hnew
          exact Or.inr ⟨rel, by simp, by rw [htail1]; exact ht, by rw [hhead1]; exact hhd,
            hname1, hcar1⟩
      · exact Or.inr ⟨r, by simp [hr], h1, h2, h3, h4⟩

/-! ## The label of a node: lemmas -/

theorem labelRow_natCast (i : Nat) (col : columnData) :
    labelRow (i : Int) col = columnRow i col := by
  have h : fmtInt (i : Int) = toString i := rfl
  simp only [labelRow, columnRow, portName, h, String.append_assoc]
  rfl

theorem labelRowsFrom_eq (cols : List columnData) (i : Nat) (html : String) :
    labelRowsFrom cols (i : Int) html
      = html ++ concatRows ((cols.enumFrom i).map (fun p => columnRow p.1 p.2)) := by
  induction cols generalizing i html with
  | nil => simp [labelRowsFrom, concatRows]
  | cons col rest ih =>
    have hi : ((i : Int) + 1) = ((i + 1 : Nat) : Int) := by push_cast; rfl
    rw [labelRowsFrom, hi, ih, labelRow_natCast]
    simp [concatRows, String.append_assoc]

/-- The label text of a table: the opening tag, the header row, one row per
column in column order, the closing tag. -/
theorem tableLabel_eq (t : table) :
    tableLabel t = tableOpen ++ headerRow t.name
      ++ concatRows (t.columns.enum.map (fun p => columnRow p.1 p.2)) ++ "</TABLE>" := by
  have h := labelRowsFrom_eq t.columns 0 (labelHead t.name)
  simp only [Nat.cast_zero] at h
  have hhead : labelHead t.name = tableOpen ++ headerRow t.name := by
    simp only [labelHead, tableOpen, headerRow, ← String.append_assoc]
    rfl
  rw [tableLabel, h, hhead]
  rfl

theorem concatRows_infix (rows : List String) (k : Nat) (row : String)
    (h : rows.get? k = some row) : row.data <:+: (concatRows rows).data := by
  induction rows generalizing k with
  | nil => simp at h
  | cons r rest ih =>
    cases k with
    | zero =>
      simp only [List.get?_cons_zero, Option.some.injEq] at h
      subst h
      exact ⟨[], (concatRows rest).data, by simp [concatRows]⟩
    | succ k' =>
      simp only [List.get?_cons_succ] at h
      obtain ⟨a, b, hab⟩ := ih k' h
      exact ⟨r.data ++ a, b, by simp [concatRows, ← hab]⟩

theorem columnRow_hasPort (k : Nat) (col : columnData) :
    hasPort (columnRow k col) (portName (k : Int)) := by
  have h : fmtInt (k : Int) = toString k := rfl
  unfold hasPort columnRow portName
  rw [h]
  refine ⟨"<TR><TD ".data, (">" ++ col.name ++ " <i>" ++ col.desc ++ "</i></TD></TR>").data, ?_⟩
  simp only [String.data_append]
  simp

/-- The label of a table declares the port of each of its column indices. -/
theorem tableLabel_hasPort (t : table) (ci : Int) (h0 : 0 ≤ ci) (h1 : ci < t.columns.length) :
    hasPort (tableLabel t) (portName ci) := by
  obtain ⟨k, rfl⟩ := Int.eq_ofNat_of_zero_le h0
  have hk : k < t.columns.length := by exact_mod_cast h1
  have hrow : (t.columns.enum.map (fun p => columnRow p.1 p.2)).get? k
      = some (columnRow k (t.columns[k])) := by
    simp only [List.get?_eq_getElem?, List.getElem?_map, List.enum, List.getElem?_enumFrom,
      List.getElem?_eq_getElem hk]
    simp
  obtain ⟨a, b, hab⟩ := concatRows_infix _ _ _ hrow
  obtain ⟨c, d, hcd⟩ := columnRow_hasPort k (t.columns[k])
  unfold hasPort
  rw [tableLabel_eq]
  refine ⟨(tableOpen ++ headerRow t.name).data ++ a ++ c, d ++ b ++ "</TABLE>".data, ?_⟩
  simp only [String.data_append, ← hab, ← hcd]
  simp

theorem nodeOf_label (t : table) : (nodeOf t).label = tableLabel t := by
  simp [Node.label, nodeOf, nodeAttrs, attrOf, mapGet]

/-! ## The graph handed to the renderer: lemmas -/

theorem goIndex_range (n : Nat) (i : Int) (h0 : 0 ≤ i) (h1 : i < n) :
    goIndex (List.range n) i = some i.toNat := by
  have hlt : i.toNat < n := by omega
  unfold goIndex
  simp only [not_lt.2 h0, if_false, List.get?_eq_getElem?]
  rw [List.getElem?_range hlt]

theorem edgeLoop_ne_exit (nodes : List Nat) (rels : List relation) (g : Graph) (acc : List Nat)
    (code : Nat) : edgeLoop nodes rels g acc ≠ .exit code := by
  by_cases h : ∀ r ∈ rels, tableIndicesValid nodes r
  · obtain ⟨g', hs, hloop, -⟩ := edgeLoop_spec nodes rels g acc h
    rw [hloop]
    simp
  · push_neg at h
    obtain ⟨msg, hmsg⟩ := edgeLoop_panic nodes rels g acc h
    rw [hmsg]
    simp

theorem graphBuilt_ok_iff (s : schema) (run : GraphRun) :
    graphBuilt s = .ok run ↔
      run.nodes = (nodeLoop s.tables).nodes
      ∧ edgeLoop (nodeLoop s.tables).nodes s.relations (nodeLoop s.tables).graph []
          = .ok (run.graph, run.edges) := by
  simp only [graphBuilt]
  cases h : edgeLoop (nodeLoop s.tables).nodes s.relations (nodeLoop s.tables).graph [] with
  | ok p =>
    obtain ⟨g, es⟩ := p
    simp only [Outcome.ok.injEq, Prod.mk.injEq]
    constructor
    · rintro rfl
      exact ⟨rfl, rfl, rfl⟩
    · rintro ⟨h1, h2, h3⟩
      cases run
      simp only at h1 h2 h3
      rw [h1, h2, h3]
  | panic msg => simp
  | exit code => simp

theorem tableIndicesValid_iff (tables : List table) (r : relation) :
    tableIndicesValid (nodeLoop tables).nodes r ↔
      (0 ≤ r.fromTable ∧ r.fromTable < tables.length)
        ∧ (0 ≤ r.toTable ∧ r.toTable < tables.length) := by
  unfold tableIndicesValid
  rw [goIndex_isSome_iff, goIndex_isSome_iff, nodeLoop_nodes_length]

theorem edgeLoop_ok_inv (nodes : List Nat) (rels : List relation) (g g' : Graph)
    (acc es : List Nat) (h : edgeLoop nodes rels g acc = .ok (g', es)) :
    g'.nodes = g.nodes ∧ ∀ r ∈ rels, tableIndicesValid nodes r := by
  by_cases hv : ∀ r ∈ rels, tableIndicesValid nodes r
  · obtain ⟨g'', hs, hloop, hnodes, -⟩ := edgeLoop_spec nodes rels g acc hv
    rw [hloop] at h
    simp only [Outcome.ok.injEq, Prod.mk.injEq] at h
    rw [← h.1]
    exact ⟨hnodes, hv⟩
  · push_neg at hv
    obtain ⟨msg, hmsg⟩ := edgeLoop_panic nodes rels g acc hv
    rw [hmsg] at h
    cases h

theorem goIndex_range_inj (n : Nat) (a b : Int) (x : Nat)
    (ha : goIndex (List.range n) a = some x) (hb : goIndex (List.range n) b = some x) :
    a = b := by
  have ha' := goIndex_eq_some ha
  have hb' := goIndex_eq_some hb
  simp only [List.length_range] at ha' hb'
  rw [goIndex_range n a ha'.1 ha'.2] at ha
  rw [goIndex_range n b hb'.1 hb'.2] at hb
  simp only [Option.some.injEq] at ha hb
  omega

theorem get?_map_nodeOf (tables : List table) (i : Int) (h0 : 0 ≤ i) :
    (tables.map nodeOf).get? i.toNat = (goIndex tables i).map nodeOf := by
  unfold goIndex
  simp only [not_lt.2 h0, if_false, List.get?_eq_getElem?, List.getElem?_map]

theorem relationInRange_valid (tables : List table) (r : relation)
    (h : relationInRange tables r) : tableIndicesValid (nodeLoop tables).nodes r := by
  rw [tableIndicesValid_iff]
  exact ⟨⟨h.1, h.2.1⟩, ⟨h.2.2.2.2.1, h.2.2.2.2.2.1⟩⟩

/-- On a schema that satisfies the invariants the two loops return: one node
per table, in table order; the edge of the `i`-th relation joins the nodes of
its two tables and carries its label and ports unless a later relation joins
the same two tables; every edge of the graph is the edge of some relation. -/
theorem graphBuilt_spec (s : schema) (hinv : schemaInvariant s) :
    ∃ run, graphBuilt s = .ok run
      ∧ run.nodes = List.range s.tables.length
      ∧ run.graph.nodes = s.tables.map nodeOf
      ∧ run.edges.length = s.relations.length
      ∧ (∀ i r, s.relations.get? i = some r →
          ∃ e ed, run.edges.get? i = some e ∧ run.graph.edges.get? e = some ed
            ∧ ed.tail = r.fromTable.toNat ∧ ed.head = r.toTable.toNat ∧ ed.name = "e"
            ∧ ((∀ j r', i < j → s.relations.get? j = some r' →
                  ¬ (r'.fromTable = r.fromTable ∧ r'.toTable = r.toTable)) → edgeCarries ed r))
      ∧ (∀ ed ∈ run.graph.edges, ∃ r ∈ s.relations,
          ed.tail = r.fromTable.toNat ∧ ed.head = r.toTable.toNat ∧ ed.name = "e"
            ∧ edgeCarries ed r) := by
  obtain ⟨hnd, hrange⟩ := hinv
  have hvalid : ∀ r ∈ s.relations, tableIndicesValid (nodeLoop s.tables).nodes r :=
    fun r hr => relationInRange_valid _ _ (hrange r hr)
  obtain ⟨g', hs, hloop, hnodes, hlen, -, hP, hI⟩ :=
    edgeLoop_spec (nodeLoop s.tables).nodes s.relations (nodeLoop s.tables).graph [] hvalid
  have hnl := nodeLoop_eq s.tables hnd
  have hsome : ∀ (i : Int) (x : Nat), goIndex (nodeLoop s.tables).nodes i = some x →
      x = i.toNat := by
    intro i x hx
    rw [hnl] at hx
    have hb := goIndex_eq_some hx
    simp only [List.length_range] at hb
    rw [goIndex_range _ _ hb.1 hb.2] at hx
    exact (Option.some.inj hx).symm
  refine ⟨⟨g', (nodeLoop s.tables).nodes, hs⟩, ?_, by rw [hnl], by rw [hnodes, hnl],
    hlen, ?_, ?_⟩
  · rw [graphBuilt_ok_iff]
    exact ⟨rfl, by simpa using hloop⟩
  · intro i r hr
    obtain ⟨e, ed, he, hed, hf, hto, hn, hcar⟩ := hP i r hr
    refine ⟨e, ed, he, hed, hsome _ _ hf, hsome _ _ hto, hn, ?_⟩
    intro hno
    apply hcar
    intro j r' hij hj
    rintro ⟨h1, h2⟩
    apply hno j r' hij hj
    rw [hnl] at h1 h2 hf hto
    exact ⟨goIndex_range_inj _ _ _ _ h1 hf, goIndex_range_inj _ _ _ _ h2 hto⟩
  · intro ed hed
    rcases hI ed hed with hold | ⟨r, hr, h1, h2, h3, h4⟩
    · rw [hnl] at hold
      simp at hold
    · exact ⟨r, hr, hsome _ _ h1, hsome _ _ h2, h3, h4⟩

theorem forall₂_get? {α β : Type} {P : α → β → Prop} {l₁ : List α} {l₂ : List β}
    (h : List.Forall₂ P l₁ l₂) : ∀ i a, l₁.get? i = some a → ∃ b, l₂.get? i = some b ∧ P a b := by
  induction h with
  | nil => simp
  | cons hab _ ih =>
    intro i a ha
    cases i with
    | zero =>
      simp only [List.get?_cons_zero, Option.some.injEq] at ha
      subst ha
      exact ⟨_, by simp, hab⟩
    | succ i' =>
      simp only [List.get?_cons_succ] at ha
      obtain ⟨b, hb, hp⟩ := ih i' a ha
      exact ⟨b, by simpa using hb, hp⟩

theorem resolveRelation_self (im : GoMap table_col_index) (fk : FkRow) (r : relation)
    (h : resolveRelation im fk = .ok r) (hself : fk.fromTable = fk.toTable) :
    r.fromTable = r.toTable := by
  unfold resolveRelation at h
  rw [← hself] at h
  cases h1 : mapGet im fk.fromTable with
  | none => simp [h1] at h
  | some idx =>
    simp only [h1] at h
    cases h2 : mapGet idx.columns fk.fromColumn with
    | none => simp [h2] at h
    | some c1 =>
      simp only [h2] at h
      cases h3 : mapGet idx.columns fk.toColumn with
      | none => simp [h3] at h
      | some c2 =>
        simp only [h3, Except.ok.injEq] at h
        rw [← h]

/-- Under a range order and with every name present, the builder returns the
tables and one relation per row, each resolved by `resolveRelation`. -/
theorem buildSchema_ok_of_present (order : List String) (rows : List ColumnRow)
    (fks : List FkRow) (hord : IsRangeOrder (groupRows rows) order)
    (hp : ∀ fk ∈ fks, namesPresent rows fk) :
    ∃ s, buildSchema order rows fks = .ok s
      ∧ s.tables = (buildIndex (groupRows rows) order).tables
      ∧ schemaInvariant s
      ∧ List.Forall₂ (fun fk r =>
          resolveRelation (buildIndex (groupRows rows) order).index_map fk = .ok r
            ∧ resolvesTo s.tables fk r) fks s.relations := by
  obtain ⟨rs, hrs, hall⟩ := resolveRelations_ok (buildIndex (groupRows rows) order).index_map
    fks [] (fun fk r => resolveRelation (buildIndex (groupRows rows) order).index_map fk = .ok r
      ∧ resolvesTo (buildIndex (groupRows rows) order).tables fk r)
    (fun fk hfk => by
      obtain ⟨r, h1, h2⟩ := resolveRelation_ok rows order hord fk (hp fk hfk)
      exact ⟨r, h1, h1, h2⟩)
  refine ⟨⟨(buildIndex (groupRows rows) order).tables, rs⟩, ?_, rfl, ?_, hall⟩
  · rw [buildSchema_ok_iff]
    exact ⟨rfl, by simpa using hrs⟩
  · constructor
    · simp only []
      rw [buildIndex_tables_names rows order hord]
      exact hord.nodup
    · intro r hr
      obtain ⟨fk, hfk⟩ := forall₂_exists_left hall r hr
      exact resolvesTo_inRange _ fk r hfk.2

/-! ## `schemaToGraph` and the errors of the library: lemmas -/

theorem createNodes_cases (gv : Graphviz) (tables : List table) (st : NodeState) :
    createNodes gv tables st = .ok (tables.foldl nodeStep st)
      ∨ createNodes gv tables st = .exit 1 := by
  induction tables generalizing st with
  | nil => exact Or.inl rfl
  | cons t rest ih =>
    unfold createNodes
    cases gv.createNodeErr st.graph t.name with
    | some err => exact Or.inr rfl
    | none => exact ih _

theorem createNodes_of_none (gv : Graphviz) (tables : List table) (st : NodeState)
    (h : ∀ g name, gv.createNodeErr g name = none) :
    createNodes gv tables st = .ok (tables.foldl nodeStep st) := by
  induction tables generalizing st with
  | nil => rfl
  | cons t rest ih =>
    unfold createNodes
    rw [h]
    exact ih _

/-- The edge loop with the errors of the library ends as the edge loop without
them, or in the exit with status 1. -/
theorem createEdges_cases (gv : Graphviz) (nodes : List Nat) (rels : List relation)
    (g : Graph) (acc : List Nat) :
    createEdges gv nodes rels g acc = edgeLoop nodes rels g acc
      ∨ createEdges gv nodes rels g acc = .exit 1 := by
  induction rels generalizing g acc with
  | nil => exact Or.inl rfl
  | cons rel rest ih =>
    unfold createEdges edgeLoop
    cases h1 : goIndex nodes rel.fromTable with
    | none => left; simp [edgeStep, h1]
    | some tail =>
      cases h2 : goIndex nodes rel.toTable with
      | none => left; simp [edgeStep, h1, h2]
      | some head =>
        simp only []
        cases gv.createEdgeErr g "e" tail head with
        | some err => exact Or.inr rfl
        | none =>
          simp only []
          rw [edgeStep_eq nodes g rel tail head h1 h2]
          exact ih _ _

theorem createEdges_of_none (gv : Graphviz) (nodes : List Nat) (rels : List relation)
    (g : Graph) (acc : List Nat) (h : ∀ g name t hd, gv.createEdgeErr g name t hd = none) :
    createEdges gv nodes rels g acc = edgeLoop nodes rels g acc := by
  induction rels generalizing g acc with
  | nil => rfl
  | cons rel rest ih =>
    unfold createEdges edgeLoop
    cases h1 : goIndex nodes rel.fromTable with
    | none => simp [edgeStep, h1]
    | some tail =>
      cases h2 : goIndex nodes rel.toTable with
      | none => simp [edgeStep, h1, h2]
      | some head =>
        simp only [h]
        rw [edgeStep_eq nodes g rel tail head h1 h2]
        exact ih _ _

theorem graphBuilt_ne_exit (s : schema) (code : Nat) : graphBuilt s ≠ .exit code := by
  intro hcode
  simp only [graphBuilt] at hcode
  cases h : edgeLoop (nodeLoop s.tables).nodes s.relations (nodeLoop s.tables).graph [] with
  | ok p => rw [h] at hcode; cases hcode
  | panic msg => rw [h] at hcode; cases hcode
  | exit c => exact edgeLoop_ne_exit _ _ _ _ c h

/-- Whatever errors the library reports, `schemaToGraph` ends as the two loops
do without errors (it returns having rendered their graph, or panics with
their panic), or it exits with status 1. -/
theorem schemaToGraph_cases (gv : Graphviz) (s : schema) (pathSVG : String) :
    schemaToGraph gv s pathSVG = graphBuilt s ∨ schemaToGraph gv s pathSVG = .exit 1 := by
  unfold schemaToGraph
  cases gv.graphErr with
  | some err => exact Or.inr rfl
  | none =>
    simp only []
    rcases createNodes_cases gv s.tables ⟨⟨[], []⟩, []⟩ with hn | hn
    · rw [hn]
      simp only []
      have hst : List.foldl nodeStep ⟨⟨[], []⟩, []⟩ s.tables = nodeLoop s.tables := rfl
      rw [hst]
      rcases createEdges_cases gv (nodeLoop s.tables).nodes s.relations
          (nodeLoop s.tables).graph [] with he | he
      · rw [he]
        simp only [graphBuilt]
        cases hloop : edgeLoop (nodeLoop s.tables).nodes s.relations
            (nodeLoop s.tables).graph [] with
        | ok p =>
          obtain ⟨g, edges⟩ := p
          simp only []
          cases gv.renderErr g pathSVG with
          | some err => exact Or.inr rfl
          | none =>
            simp only [deferredClose]
            cases gv.closeErr with
            | some err => exact Or.inr rfl
            | none => exact Or.inl rfl
        | panic msg =>
          simp only [deferredClose]
          cases gv.closeErr with
          | some err => exact Or.inr rfl
          | none => exact Or.inl rfl
        | exit code => exact absurd hloop (edgeLoop_ne_exit _ _ _ _ code)
      · rw [he]
        exact Or.inr rfl
    · rw [hn]
      exact Or.inr rfl

/-- When `schemaToGraph` returns, the graph it rendered is the graph of the two
loops and the renderer reported no error for it. -/
theorem schemaToGraph_ok (gv : Graphviz) (s : schema) (pathSVG : String) (run : GraphRun)
    (h : schemaToGraph gv s pathSVG = .ok run) :
    graphBuilt s = .ok run ∧ gv.renderErr run.graph pathSVG = none := by
  have hb : graphBuilt s = .ok run := by
    rcases schemaToGraph_cases gv s pathSVG with hc | hc
    · rw [← hc, h]
    · rw [hc] at h
      cases h
  refine ⟨hb, ?_⟩
  rw [graphBuilt_ok_iff] at hb
  obtain ⟨-, hloop⟩ := hb
  unfold schemaToGraph at h
  cases hg : gv.graphErr with
  | some err => simp [hg] at h
  | none =>
    simp only [hg] at h
    rcases createNodes_cases gv s.tables ⟨⟨[], []⟩, []⟩ with hn | hn
    · rw [hn] at h
      simp only [] at h
      have hst : List.foldl nodeStep ⟨⟨[], []⟩, []⟩ s.tables = nodeLoop s.tables := rfl
      rw [hst] at h
      rcases createEdges_cases gv (nodeLoop s.tables).nodes s.relations
          (nodeLoop s.tables).graph [] with he | he
      · rw [he, hloop] at h
        simp only [] at h
        cases hr : gv.renderErr run.graph pathSVG with
        | some err => simp [hr] at h
        | none => rfl
      · rw [he] at h
        cases h
    · rw [hn] at h
      cases h

/-- A panic of `schemaToGraph` is the panic of an index out of range in the
edge loop. -/
theorem schemaToGraph_panic (gv : Graphviz) (s : schema) (pathSVG : String) (msg : String)
    (h : schemaToGraph gv s pathSVG = .panic msg) : graphBuilt s = .panic msg := by
  rcases schemaToGraph_cases gv s pathSVG with hc | hc
  · rw [← hc, h]
  · rw [hc] at h
    cases h

/-- With a library in which only the renderer may report an error,
`schemaToGraph` runs the two loops and then returns or exits as the renderer
decides. -/
theorem schemaToGraph_rendering (re : Graph → String → Option String) (s : schema)
    (pathSVG : String) :
    schemaToGraph (Graphviz.rendering re) s pathSVG
      = match graphBuilt s with
        | .ok run =>
          match re run.graph pathSVG with
          | some _ => .exit 1
          | none => .ok run
        | .panic msg => .panic msg
        | .exit code => .exit code := by
  unfold schemaToGraph
  simp only [Graphviz.rendering]
  rw [createNodes_of_none _ _ _ (fun _ _ => rfl)]
  simp only []
  rw [createEdges_of_none _ _ _ _ _ (fun _ _ _ _ => rfl)]
  simp only [graphBuilt]
  have hst : List.foldl nodeStep ⟨⟨[], []⟩, []⟩ s.tables = nodeLoop s.tables := rfl
  rw [hst]
  cases edgeLoop (nodeLoop s.tables).nodes s.relations (nodeLoop s.tables).graph [] with
  | ok p =>
    obtain ⟨g, edges⟩ := p
    cases hre : re g pathSVG with
    | none => simp [deferredClose, hre]
    | some err => simp [deferredClose, hre]
  | panic msg => rfl
  | exit code => rfl

/-- With a library that reports no error `schemaToGraph` ends as the two
loops do. -/
theorem schemaToGraph_quiet (s : schema) (pathSVG : String) :
    schemaToGraph Graphviz.quiet s pathSVG = graphBuilt s := by
  unfold Graphviz.quiet
  rw [schemaToGraph_rendering]
  cases graphBuilt s <;> rfl

/-- Once the two loops return a graph, `schemaToGraph` returns having rendered
that graph or exits with status 1; it does not panic. -/
theorem schemaToGraph_of_graphBuilt (gv : Graphviz) (s : schema) (pathSVG : String)
    (run : GraphRun) (h : graphBuilt s = .ok run) :
    schemaToGraph gv s pathSVG = .ok run ∨ schemaToGraph gv s pathSVG = .exit 1 := by
  rcases schemaToGraph_cases gv s pathSVG with hc | hc
  · exact Or.inl (by rw [hc, h])
  · exact Or.inr hc

/-! ## `schemaToGraph`: two foreign keys between the same tables -/

/-- C9, at a schema with two relations from `orders` to `addresses`: the schema
is built from catalog rows and satisfies the invariants, `schemaToGraph` calls
`CreateEdge("e", orders, addresses)` twice, the second call returns the edge of
the first, and the graph handed to the renderer has one edge for the two
relations; with a library that reports no error `schemaToGraph` returns having
rendered this graph, and whatever the library reports it renders no other. -/
theorem schemaToGraph_two_keys_one_edge :
    buildSchema ["addresses", "orders"] twoKeyColumnRows twoKeyFkRows = .ok twoKeySchema
    ∧ schemaInvariant twoKeySchema
    ∧ twoKeySchema.tables.length = 2
    ∧ twoKeySchema.relations.length = 2
    ∧ ∃ run, graphBuilt twoKeySchema = .ok run
        ∧ run.graph.nodes.length = 2
        ∧ run.edges = [0, 0]
        ∧ run.graph.edges.length = 1
        ∧ schemaToGraph Graphviz.quiet twoKeySchema "postgresql.svg" = .ok run
        ∧ ∀ gv path run', schemaToGraph gv twoKeySchema path = .ok run' → run' = run := by
  refine ⟨by decide, by decide, rfl, rfl, _, rfl, by decide, by decide, by decide, ?_, ?_⟩
  · rw [schemaToGraph_quiet]
    rfl
  · intro gv path run' h
    have hb := (schemaToGraph_ok gv _ path run' h).1
    have hr : graphBuilt twoKeySchema = .ok _ := rfl
    rw [hr] at hb
    exact (Outcome.ok.inj hb).symm

/-- C10, at the same schema: the edge of the relation `fk_billing` (tail port
`p1`) is the only edge of the graph, and when the loop ends it carries the
label `fk_shipping` and the tail port `p2` of the later relation; this is the
graph `schemaToGraph` renders. -/
theorem schemaToGraph_two_keys_label_overwritten :
    twoKeySchema.relations.get? 0 = some ⟨"fk_billing", 1, 1, 0, 0⟩
    ∧ ∃ run, graphBuilt twoKeySchema = .ok run
        ∧ run.edges.get? 0 = some 0
        ∧ (run.graph.edges.get? 0).map
            (fun e => (e.tail, e.head, attrOf e.attrs "label", attrOf e.attrs "tailport",
              attrOf e.attrs "headport"))
          = some (1, 0, "fk_shipping", "p2", "p0")
        ∧ schemaToGraph Graphviz.quiet twoKeySchema "postgresql.svg" = .ok run
        ∧ ∀ gv path run', schemaToGraph gv twoKeySchema path = .ok run' → run' = run := by
  refine ⟨rfl, _, rfl, by decide, by decide, ?_, ?_⟩
  · rw [schemaToGraph_quiet]
    rfl
  · intro gv path run' h
    have hb := (schemaToGraph_ok gv _ path run' h).1
    have hr : graphBuilt twoKeySchema = .ok _ := rfl
    rw [hr] at hb
    exact (Outcome.ok.inj hb).symm

/-! ## `schemaToGraph`: claims -/

/-- C11: on a schema with distinct table names, for every table `schemaToGraph`
creates a node whose id is the table name and whose label is the opening tag,
the header row with the table name, one row per column in column order (the
row of the column at index `k` carries port `p<k>` and shows the name and the
type name of the column, inserted as they are) and the closing tag; this is
so in the graph handed to the renderer, which is the graph of every run of
`schemaToGraph` that returns. -/
theorem schemaToGraph_node_of_table (s : schema) (run : GraphRun)
    (hnd : (s.tables.map table.name).Nodup) (hrun : graphBuilt s = .ok run) :
    run.graph.nodes.length = s.tables.length
    ∧ (∀ i t, s.tables.get? i = some t →
        ∃ n node, run.nodes.get? i = some n ∧ run.graph.nodes.get? n = some node
          ∧ node.name = t.name
          ∧ ∃ rows : List String, rows.length = t.columns.length
              ∧ (∀ k col, t.columns.get? k = some col → rows.get? k = some (columnRow k col))
              ∧ node.label
                  = tableOpen ++ headerRow t.name ++ concatRows rows ++ "</TABLE>")
    ∧ (∀ gv path run', schemaToGraph gv s path = .ok run' → run' = run)
    ∧ (∀ gv path, schemaToGraph gv s path = .ok run ∨ schemaToGraph gv s path = .exit 1) := by
  have hlink : ∀ gv path run', schemaToGraph gv s path = .ok run' → run' = run := by
    intro gv path run' h
    have hb := (schemaToGraph_ok gv s path run' h).1
    rw [hrun] at hb
    exact (Outcome.ok.inj hb).symm
  have hcases : ∀ gv path, schemaToGraph gv s path = .ok run ∨ schemaToGraph gv s path = .exit 1 :=
    fun gv path => schemaToGraph_of_graphBuilt gv s path run hrun
  rw [graphBuilt_ok_iff] at hrun
  obtain ⟨hnodes, hloop⟩ := hrun
  have hgn := (edgeLoop_ok_inv _ _ _ _ _ _ hloop).1
  rw [nodeLoop_eq s.tables hnd] at hnodes hgn
  simp only at hgn
  refine ⟨by rw [hgn, List.length_map], ?_, hlink, hcases⟩
  intro i t hi
  have hilt : i < s.tables.length := by
    rw [List.get?_eq_some] at hi
    exact hi.1
  refine ⟨i, nodeOf t, ?_, ?_, rfl, t.columns.enum.map (fun p => columnRow p.1 p.2), ?_, ?_, ?_⟩
  · rw [hnodes]
    simp only [List.get?_eq_getElem?]
    exact List.getElem?_range hilt
  · rw [hgn]
    simp only [List.get?_eq_getElem?] at hi ⊢
    rw [List.getElem?_map, hi]
    rfl
  · simp [List.enum]
  · intro k col hk
    have hklt : k < t.columns.length := by
      rw [List.get?_eq_some] at hk
      exact hk.1
    simp only [List.get?_eq_getElem?] at hk ⊢
    simp only [List.getElem?_map, List.enum, List.getElem?_enumFrom, hk, Option.map_some',
      Nat.zero_add]
  · rw [nodeOf_label, tableLabel_eq]

/-- C11, at the schema of the example of the specification. -/
theorem schemaToGraph_node_of_table_witness :
    ∃ run, graphBuilt exampleSchema = .ok run
      ∧ run.graph.nodes.length = exampleSchema.tables.length
      ∧ (∀ i t, exampleSchema.tables.get? i = some t →
        ∃ n node, run.nodes.get? i = some n ∧ run.graph.nodes.get? n = some node
          ∧ node.name = t.name
          ∧ ∃ rows : List String, rows.length = t.columns.length
              ∧ (∀ k col, t.columns.get? k = some col → rows.get? k = some (columnRow k col))
              ∧ node.label
                  = tableOpen ++ headerRow t.name ++ concatRows rows ++ "</TABLE>")
      ∧ (∀ gv path run', schemaToGraph gv exampleSchema path = .ok run' → run' = run)
      ∧ (∀ gv path, schemaToGraph gv exampleSchema path = .ok run
          ∨ schemaToGraph gv exampleSchema path = .exit 1) :=
  ⟨_, rfl, schemaToGraph_node_of_table exampleSchema _ (by decide) rfl⟩

/-- The two loops panic exactly when some relation has a `fromTable` or a
`toTable` that is not a valid index into the tables, and return a graph
otherwise; the column indices play no part in it. -/
theorem graphBuilt_panics_iff (s : schema) :
    ((∃ msg, graphBuilt s = .panic msg) ↔ ∃ r ∈ s.relations, ¬ tablesInRange s.tables r)
    ∧ ((∃ run, graphBuilt s = .ok run) ↔ ∀ r ∈ s.relations, tablesInRange s.tables r) := by
  have hiff : ∀ r, tableIndicesValid (nodeLoop s.tables).nodes r ↔ tablesInRange s.tables r :=
    fun r => tableIndicesValid_iff s.tables r
  have hok : (∀ r ∈ s.relations, tablesInRange s.tables r) → ∃ run, graphBuilt s = .ok run := by
    intro h
    obtain ⟨g', hs, hloop, -⟩ := edgeLoop_spec (nodeLoop s.tables).nodes s.relations
      (nodeLoop s.tables).graph [] (fun r hr => (hiff r).2 (h r hr))
    exact ⟨⟨g', (nodeLoop s.tables).nodes, hs⟩, by
      rw [graphBuilt_ok_iff]; exact ⟨rfl, by simpa using hloop⟩⟩
  have hpanic : (∃ r ∈ s.relations, ¬ tablesInRange s.tables r) →
      ∃ msg, graphBuilt s = .panic msg := by
    rintro ⟨r, hr, hbad⟩
    obtain ⟨msg, hmsg⟩ := edgeLoop_panic (nodeLoop s.tables).nodes s.relations
      (nodeLoop s.tables).graph [] ⟨r, hr, fun hv => hbad ((hiff r).1 hv)⟩
    exact ⟨msg, by simp only [graphBuilt, hmsg]⟩
  refine ⟨⟨?_, hpanic⟩, ⟨?_, hok⟩⟩
  · rintro ⟨msg, hmsg⟩
    by_contra hno
    push_neg at hno
    obtain ⟨run, hrun⟩ := hok hno
    rw [hrun] at hmsg
    cases hmsg
  · rintro ⟨run, hrun⟩
    by_contra hno
    push_neg at hno
    obtain ⟨msg, hmsg⟩ := hpanic hno
    rw [hrun] at hmsg
    cases hmsg

/-- A relation whose `fromTable` or `toTable` is not a valid index into the
tables is fatal whatever the library reports: `schemaToGraph` panics or exits,
it never returns. -/
theorem schemaToGraph_table_index_fatal (gv : Graphviz) (s : schema) (pathSVG : String)
    (h : ∃ r ∈ s.relations, ¬ tablesInRange s.tables r) :
    ∀ run, schemaToGraph gv s pathSVG ≠ .ok run := by
  intro run hrun
  obtain ⟨msg, hmsg⟩ := (graphBuilt_panics_iff s).1.2 h
  rw [(schemaToGraph_ok gv s pathSVG run hrun).1] at hmsg
  cases hmsg

set_option maxRecDepth 100000 in
/-- A library whose renderer reports an error for an undeclared port makes
`schemaToGraph` exit with status 1 on `badPortSchema`, whose one relation
names column index 5 of a table with one column. -/
theorem schemaToGraph_bad_port_exits (gv : Graphviz) (pathSVG : String)
    (h : rejectsUndeclaredPorts gv) : schemaToGraph gv badPortSchema pathSVG = .exit 1 := by
  rcases schemaToGraph_cases gv badPortSchema pathSVG with hc | hc
  · exfalso
    have hb : ∃ run, graphBuilt badPortSchema = .ok run := ⟨_, rfl⟩
    obtain ⟨run, hrun⟩ := hb
    rw [hrun] at hc
    have hre := (schemaToGraph_ok gv _ pathSVG run hc).2
    have hbad : ¬ portsDeclared run.graph := by
      have hr : graphBuilt badPortSchema = .ok _ := rfl
      rw [hr] at hrun
      rw [← Outcome.ok.inj hrun]
      decide
    have := h run.graph pathSVG hbad
    rw [hre] at this
    cases this
  · exact hc

set_option maxRecDepth 100000 in
/-- C14, at `overwrittenPortSchema`: its first relation names column index 5 of
the one-column table `a`, its second relation joins the same two tables with
valid indices. The second `CreateEdge("e", a, b)` returns the edge of the
first and the setters replace the port `p5`; the graph handed to the renderer
is the graph of the valid schema, every port in it is declared, and
`schemaToGraph` returns wherever it returns on the valid schema, also with a
renderer that reports an error for every undeclared port. -/
theorem schemaToGraph_bad_port_overwritten :
    (⟨"fk1", 0, 5, 1, 0⟩ : relation) ∈ overwrittenPortSchema.relations
    ∧ ¬ relationInRange overwrittenPortSchema.tables ⟨"fk1", 0, 5, 1, 0⟩
    ∧ schemaInvariant validPortSchema
    ∧ rejectsUndeclaredPorts Graphviz.strictPorts
    ∧ ∃ run run', graphBuilt overwrittenPortSchema = .ok run
        ∧ graphBuilt validPortSchema = .ok run'
        ∧ run.graph = run'.graph
        ∧ portsDeclared run.graph
        ∧ schemaToGraph Graphviz.strictPorts overwrittenPortSchema "postgresql.svg" = .ok run
        ∧ ∀ re path,
            (schemaToGraph (Graphviz.rendering re) overwrittenPortSchema path).map GraphRun.graph
              = (schemaToGraph (Graphviz.rendering re) validPortSchema path).map
                  GraphRun.graph := by
  have hstrict : rejectsUndeclaredPorts Graphviz.strictPorts := by
    intro g path hg
    simp [Graphviz.strictPorts, Graphviz.rendering, hg]
  have h1 : ∃ run, graphBuilt overwrittenPortSchema = .ok run := ⟨_, rfl⟩
  have h2 : ∃ run, graphBuilt validPortSchema = .ok run := ⟨_, rfl⟩
  obtain ⟨run, hrun⟩ := h1
  obtain ⟨run', hrun'⟩ := h2
  have hr : graphBuilt overwrittenPortSchema = .ok _ := rfl
  have hr' : graphBuilt validPortSchema = .ok _ := rfl
  have e1 := Outcome.ok.inj (hr.symm.trans hrun)
  have e2 := Outcome.ok.inj (hr'.symm.trans hrun')
  have hsame : run.graph = run'.graph := by
    rw [← e1, ← e2]
    decide
  have hdecl : portsDeclared run.graph := by
    rw [← e1]
    decide
  refine ⟨by decide, by decide, by decide, hstrict, run, run', hrun, hrun', hsame, hdecl, ?_, ?_⟩
  · unfold Graphviz.strictPorts
    rw [schemaToGraph_rendering, hrun]
    simp only [hdecl, if_true]
  · intro re path
    rw [schemaToGraph_rendering, schemaToGraph_rendering, hrun, hrun']
    simp only [hsame]
    cases re run'.graph path <;> simp [Outcome.map, hsame]

/-- C17: on every schema the builder returns, `schemaToGraph` never indexes
`nodes` out of range: the two loops return a graph and `schemaToGraph` does not
panic, whatever the library reports; for every relation the nodes of its two
tables are defined and their labels declare the tail port and the head port
set for it; and in the graph handed to the renderer the tail port and head
port of every edge are declared by the labels of its tail node and head
node. -/
theorem schemaToGraph_after_buildSchema (order : List String) (rows : List ColumnRow)
    (fks : List FkRow) (s : schema) (hord : IsRangeOrder (groupRows rows) order)
    (hs : buildSchema order rows fks = .ok s) :
    ∃ run, graphBuilt s = .ok run
      ∧ (∀ gv path msg, schemaToGraph gv s path ≠ .panic msg)
      ∧ (∀ gv path, schemaToGraph gv s path = .ok run ∨ schemaToGraph gv s path = .exit 1)
      ∧ (∀ r ∈ s.relations, ∃ t h nt nh,
          goIndex run.nodes r.fromTable = some t ∧ goIndex run.nodes r.toTable = some h
            ∧ run.graph.nodes.get? t = some nt ∧ run.graph.nodes.get? h = some nh
            ∧ hasPort nt.label (portName r.fromColumn) ∧ hasPort nh.label (portName r.toColumn))
      ∧ (∀ ed ∈ run.graph.edges, ∃ nt nh,
          run.graph.nodes.get? ed.tail = some nt ∧ run.graph.nodes.get? ed.head = some nh
            ∧ hasPort nt.label (attrOf ed.attrs "tailport")
            ∧ hasPort nh.label (attrOf ed.attrs "headport")) := by
  have hinv : schemaInvariant s := by
    have hs' := (buildSchema_ok_iff order rows fks s).1 hs
    obtain ⟨ht, hr⟩ := hs'
    constructor
    · rw [ht, buildIndex_tables_names rows order hord]
      exact hord.nodup
    · obtain ⟨rs, hrs, hall⟩ := resolveRelations_ok_inv _ _ _ _ hr
      simp only [List.nil_append] at hrs
      subst hrs
      intro r hmem
      rw [ht]
      obtain ⟨fk, hfk⟩ := forall₂_exists_left hall r hmem
      exact resolvesTo_inRange _ fk r (resolveRelation_ok_inv rows order hord fk r hfk).2
  obtain ⟨run, hrun, hnodes, hgn, -, -, hedges⟩ := graphBuilt_spec s hinv
  have hcases : ∀ gv path, schemaToGraph gv s path = .ok run ∨ schemaToGraph gv s path = .exit 1 :=
    fun gv path => schemaToGraph_of_graphBuilt gv s path run hrun
  have hnopanic : ∀ gv path msg, schemaToGraph gv s path ≠ .panic msg := by
    intro gv path msg hp
    rcases hcases gv path with h | h <;> rw [h] at hp <;> cases hp
  -- the node of a table index and the port of a column index of that table
  have key : ∀ r ∈ s.relations,
      (∃ nt, goIndex run.nodes r.fromTable = some r.fromTable.toNat
        ∧ run.graph.nodes.get? r.fromTable.toNat = some nt
        ∧ hasPort nt.label (portName r.fromColumn))
      ∧ (∃ nh, goIndex run.nodes r.toTable = some r.toTable.toNat
        ∧ run.graph.nodes.get? r.toTable.toNat = some nh
        ∧ hasPort nh.label (portName r.toColumn)) := by
    intro r hr
    obtain ⟨h1, h2, h3, h4, h5, h6, h7, h8⟩ := hinv.2 r hr
    have side : ∀ (ti ci : Int), 0 ≤ ti → ti < s.tables.length → 0 ≤ ci →
        ci < columnCountAt s.tables ti →
        ∃ nt, goIndex run.nodes ti = some ti.toNat
          ∧ run.graph.nodes.get? ti.toNat = some nt ∧ hasPort nt.label (portName ci) := by
      intro ti ci a b c d
      have hsome : (goIndex s.tables ti).isSome := (goIndex_isSome_iff _ _).2 ⟨a, b⟩
      obtain ⟨t, ht⟩ := Option.isSome_iff_exists.1 hsome
      refine ⟨nodeOf t, ?_, ?_, ?_⟩
      · rw [hnodes]
        exact goIndex_range _ _ a b
      · rw [hgn, get?_map_nodeOf _ _ a, ht]
        rfl
      · rw [nodeOf_label]
        apply tableLabel_hasPort t ci c
        simpa [columnCountAt, ht] using d
    exact ⟨side _ _ h1 h2 h3 h4, side _ _ h5 h6 h7 h8⟩
  refine ⟨run, hrun, hnopanic, hcases, ?_, ?_⟩
  · intro r hr
    obtain ⟨⟨nt, a1, a2, a3⟩, ⟨nh, b1, b2, b3⟩⟩ := key r hr
    exact ⟨_, _, nt, nh, a1, b1, a2, b2, a3, b3⟩
  · intro ed hed
    obtain ⟨r, hr, htail, hhead, -, hcar⟩ := hedges ed hed
    obtain ⟨⟨nt, -, a2, a3⟩, ⟨nh, -, b2, b3⟩⟩ := key r hr
    refine ⟨nt, nh, by rw [htail]; exact a2, by rw [hhead]; exact b2, ?_, ?_⟩
    · rw [hcar.2.1]; exact a3
    · rw [hcar.2.2]; exact b3

/-- C17, at the example of the specification, tables visited as `orders`, `users`. -/
theorem schemaToGraph_after_buildSchema_witness :
    ∃ run, graphBuilt exampleSchema = .ok run
      ∧ (∀ gv path msg, schemaToGraph gv exampleSchema path ≠ .panic msg)
      ∧ (∀ gv path, schemaToGraph gv exampleSchema path = .ok run
          ∨ schemaToGraph gv exampleSchema path = .exit 1)
      ∧ (∀ r ∈ exampleSchema.relations, ∃ t h nt nh,
          goIndex run.nodes r.fromTable = some t ∧ goIndex run.nodes r.toTable = some h
            ∧ run.graph.nodes.get? t = some nt ∧ run.graph.nodes.get? h = some nh
            ∧ hasPort nt.label (portName r.fromColumn) ∧ hasPort nh.label (portName r.toColumn))
      ∧ (∀ ed ∈ run.graph.edges, ∃ nt nh,
          run.graph.nodes.get? ed.tail = some nt ∧ run.graph.nodes.get? ed.head = some nh
            ∧ hasPort nt.label (attrOf ed.attrs "tailport")
            ∧ hasPort nh.label (attrOf ed.attrs "headport")) :=
  schemaToGraph_after_buildSchema ["orders", "users"] exampleColumnRows exampleFkRows
    exampleSchema (by decide) (by decide)

/-- Self-referencing foreign keys in a list of foreign-key rows: when every
row names present tables and columns and the `i`-th row has the same table as
`fromTable` and `toTable`, the builder returns a schema whose `i`-th relation
has `fromTable = toTable`, and the two loops of `schemaToGraph` return a graph
in which the edge of that relation has the node of that table as tail and as
head; the edge carries the ports and the label of this relation unless a
later relation joins the same table to itself. -/
theorem self_reference_in_list (order : List String) (rows : List ColumnRow)
    (fks : List FkRow) (i : Nat) (fk : FkRow)
    (hord : IsRangeOrder (groupRows rows) order)
    (hp : ∀ x ∈ fks, namesPresent rows x)
    (hi : fks.get? i = some fk) (hself : fk.fromTable = fk.toTable) :
    ∃ s r run e ed node,
      buildSchema order rows fks = .ok s
      ∧ s.relations.length = fks.length
      ∧ s.relations.get? i = some r
      ∧ r.name = fk.constraintName
      ∧ r.fromTable = r.toTable
      ∧ graphBuilt s = .ok run
      ∧ run.edges.length = fks.length
      ∧ run.edges.get? i = some e
      ∧ run.graph.edges.get? e = some ed
      ∧ ed.tail = ed.head
      ∧ goIndex run.nodes r.fromTable = some ed.tail
      ∧ run.graph.nodes.get? ed.tail = some node
      ∧ node.name = fk.fromTable
      ∧ ((∀ j r', i < j → s.relations.get? j = some r' →
            ¬ (r'.fromTable = r.fromTable ∧ r'.toTable = r.toTable)) →
          attrOf ed.attrs "tailport" = portName r.fromColumn
          ∧ attrOf ed.attrs "headport" = portName r.toColumn
          ∧ attrOf ed.attrs "label" = fk.constraintName) := by
  obtain ⟨s, hs, -, hinv, hall⟩ := buildSchema_ok_of_present order rows fks hord hp
  obtain ⟨r, hr, hres, hto⟩ := forall₂_get? hall i fk hi
  have hsame : r.fromTable = r.toTable := resolveRelation_self _ fk r hres hself
  obtain ⟨run, hrun, hnodes, hgn, hlen, hP, -⟩ := graphBuilt_spec s hinv
  obtain ⟨e, ed, he, hed, htail, hhead, -, hcar⟩ := hP i r hr
  obtain ⟨h1, h2, -⟩ := hinv.2 r (List.mem_iff_get?.2 ⟨i, hr⟩)
  have hname : tableNameAt s.tables r.fromTable = some fk.fromTable := hto.2.1
  unfold tableNameAt at hname
  obtain ⟨t, ht, htn⟩ := Option.map_eq_some'.1 hname
  refine ⟨s, r, run, e, ed, nodeOf t, hs, hall.length_eq.symm, hr, hto.1, hsame, hrun,
    by rw [hlen, hall.length_eq], he, hed, ?_, ?_, ?_, htn, ?_⟩
  · rw [htail, hhead, hsame]
  · rw [hnodes, htail]
    exact goIndex_range _ _ h1 h2
  · rw [hgn, htail, get?_map_nodeOf _ _ h1, ht]
    rfl
  · intro hno
    obtain ⟨c1, c2, c3⟩ := hcar hno
    exact ⟨c2, c3, by rw [c1, hto.1]⟩

/-- C12, at a table with two foreign keys to itself: every row names present
tables and columns and has `fromTable = toTable`, the builder returns
`twoSelfSchema`, whose relations have `fromTable = toTable`, and both edge
ends are the node `employees`; but the second `CreateEdge("e", employees,
employees)` returns the edge of the first row, so the edge of `fk_manager`
(tail port `p1`) ends with the label `fk_mentor` and the tail port `p2`, in the
graph `schemaToGraph` renders. -/
theorem self_reference_two_keys_overwritten :
    (∀ fk ∈ twoSelfFkRows, namesPresent twoSelfColumnRows fk ∧ fk.fromTable = fk.toTable)
    ∧ buildSchema ["employees"] twoSelfColumnRows twoSelfFkRows = .ok twoSelfSchema
    ∧ twoSelfSchema.relations.get? 0 = some ⟨"fk_manager", 0, 1, 0, 0⟩
    ∧ ∃ run, graphBuilt twoSelfSchema = .ok run
        ∧ run.edges = [0, 0]
        ∧ run.graph.edges.map
            (fun e => (e.tail, e.head, attrOf e.attrs "label", attrOf e.attrs "tailport",
              attrOf e.attrs "headport"))
          = [(0, 0, "fk_mentor", "p2", "p0")]
        ∧ schemaToGraph Graphviz.quiet twoSelfSchema "postgresql.svg" = .ok run
        ∧ ∀ gv path run', schemaToGraph gv twoSelfSchema path = .ok run' → run' = run := by
  refine ⟨by decide, by decide, rfl, _, rfl, by decide, by decide, ?_, ?_⟩
  · rw [schemaToGraph_quiet]
    rfl
  · intro gv path run' h
    have hb := (schemaToGraph_ok gv _ path run' h).1
    have hr : graphBuilt twoSelfSchema = .ok _ := rfl
    rw [hr] at hb
    exact (Outcome.ok.inj hb).symm

theorem exampleOrder_cases (order : List String)
    (hord : IsRangeOrder (groupRows exampleColumnRows) order) :
    order = ["users", "orders"] ∨ order = ["orders", "users"] := by
  have hkeys : mapKeys (groupRows exampleColumnRows) = ["users", "orders"] := by decide
  unfold IsRangeOrder at hord
  rw [hkeys] at hord
  have hlen := hord.length_eq
  have hnd : order.Nodup := hord.nodup_iff.2 (by decide)
  match order, hlen, hord, hnd with
  | [a, b], _, hord, hnd =>
    have ha : a ∈ ["users", "orders"] := hord.subset (by simp)
    have hb : b ∈ ["users", "orders"] := hord.subset (by simp)
    simp only [List.mem_cons, List.mem_singleton, List.not_mem_nil, or_false] at ha hb
    simp only [List.nodup_cons, List.mem_singleton, List.not_mem_nil, not_false_eq_true,
      List.nodup_nil, and_true] at hnd
    rcases ha with rfl | rfl <;> rcases hb with rfl | rfl
    · exact absurd rfl hnd
    · exact Or.inl rfl
    · exact Or.inr rfl
    · exact absurd rfl hnd

/-- C13: on the example of the specification, whichever order `range` visits
the two tables in, the builder returns a schema with the two tables `users`
(columns id, name) and `orders` (columns id, user_id) and the one relation
`fk_orders_user` from `orders.user_id` to `users.id`, and `schemaToGraph`
maps it to 2 nodes and 1 edge, from port `p1` of the node `orders` to port
`p0` of the node `users`, labelled `fk_orders_user`: this is the graph handed
to the renderer, `schemaToGraph` returns having rendered it when the library
reports no error, and it never panics. -/
theorem example_end_to_end (order : List String)
    (hord : IsRangeOrder (groupRows exampleColumnRows) order) :
    ∃ s r run ed nt nh,
      buildSchema order exampleColumnRows exampleFkRows = .ok s
      ∧ s.tables.Perm [usersTable, ordersTable]
      ∧ s.relations = [r]
      ∧ resolvesTo s.tables ⟨"fk_orders_user", "orders", "user_id", "users", "id"⟩ r
      ∧ graphBuilt s = .ok run
      ∧ schemaToGraph Graphviz.quiet s "postgresql.svg" = .ok run
      ∧ (∀ gv path, schemaToGraph gv s path = .ok run ∨ schemaToGraph gv s path = .exit 1)
      ∧ run.graph.nodes.length = 2
      ∧ run.graph.edges = [ed]
      ∧ run.graph.nodes.get? ed.tail = some nt ∧ nt.name = "orders"
      ∧ run.graph.nodes.get? ed.head = some nh ∧ nh.name = "users"
      ∧ attrOf ed.attrs "tailport" = "p1"
      ∧ attrOf ed.attrs "headport" = "p0"
      ∧ attrOf ed.attrs "label" = "fk_orders_user"
      ∧ hasPort nt.label "p1" ∧ hasPort nh.label "p0" := by
  rcases exampleOrder_cases order hord with rfl | rfl
  · refine ⟨⟨[usersTable, ordersTable], [⟨"fk_orders_user", 1, 1, 0, 0⟩]⟩, _, _, _, _, _,
      by decide, by decide, rfl, by decide, rfl, ?_, ?_, rfl, rfl, rfl, rfl, rfl, rfl, rfl, rfl,
      rfl, ?_, ?_⟩
    · rw [schemaToGraph_quiet]
      rfl
    · exact fun gv path => schemaToGraph_of_graphBuilt gv _ path _ rfl
    · exact tableLabel_hasPort ordersTable 1 (by decide) (by decide)
    · exact tableLabel_hasPort usersTable 0 (by decide) (by decide)
  · refine ⟨⟨[ordersTable, usersTable], [⟨"fk_orders_user", 0, 1, 1, 0⟩]⟩, _, _, _, _, _,
      by decide, by decide, rfl, by decide, rfl, ?_, ?_, rfl, rfl, rfl, rfl, rfl, rfl, rfl, rfl,
      rfl, ?_, ?_⟩
    · rw [schemaToGraph_quiet]
      rfl
    · exact fun gv path => schemaToGraph_of_graphBuilt gv _ path _ rfl
    · exact tableLabel_hasPort ordersTable 1 (by decide) (by decide)
    · exact tableLabel_hasPort usersTable 0 (by decide) (by decide)

/-- C13, with the tables visited as `users`, `orders`. -/
theorem example_end_to_end_witness :
    ∃ s r run ed nt nh,
      buildSchema ["users", "orders"] exampleColumnRows exampleFkRows = .ok s
      ∧ s.tables.Perm [usersTable, ordersTable]
      ∧ s.relations = [r]
      ∧ resolvesTo s.tables ⟨"fk_orders_user", "orders", "user_id", "users", "id"⟩ r
      ∧ graphBuilt s = .ok run
      ∧ schemaToGraph Graphviz.quiet s "postgresql.svg" = .ok run
      ∧ (∀ gv path, schemaToGraph gv s path = .ok run ∨ schemaToGraph gv s path = .exit 1)
      ∧ run.graph.nodes.length = 2
      ∧ run.graph.edges = [ed]
      ∧ run.graph.nodes.get? ed.tail = some nt ∧ nt.name = "orders"
      ∧ run.graph.nodes.get? ed.head = some nh ∧ nh.name = "users"
      ∧ attrOf ed.attrs "tailport" = "p1"
      ∧ attrOf ed.attrs "headport" = "p0"
      ∧ attrOf ed.attrs "label" = "fk_orders_user"
      ∧ hasPort nt.label "p1" ∧ hasPort nh.label "p0" :=
  example_end_to_end ["users", "orders"] (by decide)

/-! ## The queries: claims -/

theorem not_isQueryBreaker_of_ident (c : Char) (h : isIdentChar c) : ¬ isQueryBreaker c := by
  rw [← schemaClass_iff] at h
  have e1 : c = ';' → c.toNat = 59 := by rintro rfl; rfl
  have e2 : c = '-' → c.toNat = 45 := by rintro rfl; rfl
  have e3 : c = '/' → c.toNat = 47 := by rintro rfl; rfl
  have e4 : c = '*' → c.toNat = 42 := by rintro rfl; rfl
  have e5 : c = '#' → c.toNat = 35 := by rintro rfl; rfl
  have e6 : c = '_' → c.toNat = 95 := by rintro rfl; rfl
  simp only [schemaClass, perlWord, perlDigit, Bool.or_eq_true, Bool.and_eq_true,
    decide_eq_true_eq, beq_iff_eq] at h
  have h1 : c.toNat = 95 ∨ (48 ≤ c.toNat ∧ c.toNat ≤ 57) ∨ (65 ≤ c.toNat ∧ c.toNat ≤ 90)
      ∨ (97 ≤ c.toNat ∧ c.toNat ≤ 122) := by
    rcases h with ((((h | h) | h) | h) | h) | h
    · exact Or.inr (Or.inl h)
    · exact Or.inr (Or.inr (Or.inl h))
    · exact Or.inl h
    · exact Or.inr (Or.inr (Or.inr h))
    · exact Or.inr (Or.inl h)
    · exact Or.inl (e6 h)
  intro hb
  simp only [isQueryBreaker, spaceCodes, List.mem_cons, List.mem_singleton,
    List.not_mem_nil, or_false] at hb
  have h2 : c.toNat = 39 ∨ c.toNat = 92 ∨ c.toNat = 59 ∨ c.toNat = 45 ∨ c.toNat = 47
      ∨ c.toNat = 42 ∨ c.toNat = 35 ∨ c.toNat = 9 ∨ c.toNat = 10 ∨ c.toNat = 11
      ∨ c.toNat = 12 ∨ c.toNat = 13 ∨ c.toNat = 32 ∨ 133 ≤ c.toNat := by
    rcases hb with hb | hb | hb | hb | hb | hb | hb | hb
    · omega
    · omega
    · have := e1 hb; omega
    · omega
    · have := e2 hb; omega
    · have := e3 hb; omega
    · have := e4 hb; omega
    · have := e5 hb; omega
  omega

theorem fetchSchemaConnected_queries_mem (conn : Conn) (order : List String)
    (schemaName : String) :
    ∀ q ∈ (fetchSchemaConnected conn order schemaName).queries,
      q = columnQuery schemaName ∨ q = fkQuery schemaName := by
  intro q hq
  unfold fetchSchemaConnected at hq
  split at hq
  · simp at hq
  · split at hq
    · simp only [List.mem_singleton] at hq
      exact Or.inl hq
    · split at hq
      · simp only [List.mem_singleton] at hq
        exact Or.inl hq
      · simp only [List.mem_singleton] at hq
        exact Or.inl hq
      · simp only []  at hq
        split at hq <;> (try split at hq) <;>
          simp only [List.mem_cons, List.mem_singleton, List.not_mem_nil, or_false] at hq <;>
          exact hq

set_option maxRecDepth 100000 in
/-- C15: on an accepted schema name, when the two queries succeed and every
row decodes and resolves, `fetchSchemaConnected` sends exactly two query
texts, the column query and then the foreign-key query, and returns the
schema; both texts begin with `SELECT` and hold no semicolon. -/
theorem fetchSchemaConnected_two_queries (conn : Conn) (order : List String)
    (schemaName : String) (rawColumns rawFks : List RawRow) (mtables : GoMap table)
    (rels : List relation)
    (hname : schemaValidRegex schemaName = true)
    (hq1 : conn.query (columnQuery schemaName) = .ok rawColumns)
    (hscan1 : scanColumnRows rawColumns [] = .ok mtables)
    (hq2 : conn.query (fkQuery schemaName) = .ok rawFks)
    (hscan2 : scanFkRows (buildIndex mtables order).index_map rawFks [] = .ok rels) :
    (fetchSchemaConnected conn order schemaName).queries
        = [columnQuery schemaName, fkQuery schemaName]
    ∧ (fetchSchemaConnected conn order schemaName).outcome
        = .ok ⟨(buildIndex mtables order).tables, rels⟩
    ∧ "SELECT".data <+: (columnQuery schemaName).data
    ∧ "SELECT".data <+: (fkQuery schemaName).data
    ∧ ';' ∉ (columnQuery schemaName).data
    ∧ ';' ∉ (fkQuery schemaName).data := by
  have hsemi : ';' ∉ schemaName.data := by
    intro hmem
    exact not_isQueryBreaker_of_ident _ (((schemaValidRegex_iff schemaName).1 hname).2 _ hmem)
      (Or.inr (Or.inr (Or.inl rfl)))
  refine ⟨?_, ?_, ?_, ?_, ?_, ?_⟩
  · simp only [fetchSchemaConnected, hname, Bool.not_true, Bool.false_eq_true, if_false, hq1,
      hscan1, hq2, hscan2]
  · simp only [fetchSchemaConnected, hname, Bool.not_true, Bool.false_eq_true, if_false, hq1,
      hscan1, hq2, hscan2]
  · have h : "SELECT".data
        <+: "SELECT table_name,column_name,udt_name FROM information_schema.columns WHERE table_schema = '".data := by
      decide
    simp only [columnQuery, String.data_append]
    exact (h.trans (List.prefix_append _ _)).trans (List.prefix_append _ _)
  · have h : "SELECT".data <+: fkQueryHead.data := by decide
    simp only [fkQuery, String.data_append]
    exact ((h.trans (List.prefix_append _ _)).trans (List.prefix_append _ _)).trans
      (List.prefix_append _ _)
  · simp only [columnQuery, String.data_append, List.mem_append, not_or]
    exact ⟨⟨by decide, hsemi⟩, by decide⟩
  · simp only [fkQuery, String.data_append, List.mem_append, not_or]
    exact ⟨⟨⟨by decide, by decide⟩, hsemi⟩, by decide⟩

/-- C15, at the schema name `public` on a connection that delivers the rows of
the example of the specification. -/
theorem fetchSchemaConnected_two_queries_witness :
    (fetchSchemaConnected exampleConn ["orders", "users"] "public").queries
        = [columnQuery "public", fkQuery "public"]
    ∧ (fetchSchemaConnected exampleConn ["orders", "users"] "public").outcome
        = .ok exampleSchema :=
  ⟨(fetchSchemaConnected_two_queries exampleConn ["orders", "users"] "public"
      (exampleColumnRows.map ColumnRow.raw) (exampleFkRows.map FkRow.raw)
      (groupRows exampleColumnRows) exampleSchema.relations
      (by decide) rfl (by decide) rfl (by decide)).1,
   (fetchSchemaConnected_two_queries exampleConn ["orders", "users"] "public"
      (exampleColumnRows.map ColumnRow.raw) (exampleFkRows.map FkRow.raw)
      (groupRows exampleColumnRows) exampleSchema.relations
      (by decide) rfl (by decide) rfl (by decide)).2.1⟩

set_option maxRecDepth 100000 in
/-- C16: for an accepted schema name each query text is its fixed template
with the name between one pair of single quotes; no character of the name is
a single quote, a backslash, a semicolon, white space or part of a comment
mark, so the text holds the quotes of the template and no other (2 in the
column query, 4 in the foreign-key query); and every query text that
`fetchSchemaConnected` sends is one of these two, whatever rows the connection
delivers. -/
theorem query_texts_of_accepted_name (schemaName : String)
    (hname : schemaValidRegex schemaName = true) :
    columnQuery schemaName
        = "SELECT table_name,column_name,udt_name FROM information_schema.columns WHERE table_schema = "
          ++ "'" ++ schemaName ++ "'" ++ " ORDER BY ordinal_position"
    ∧ fkQuery schemaName
        = fkQueryHead ++ " AND tc.table_schema = " ++ "'" ++ schemaName ++ "'"
    ∧ (∀ c ∈ schemaName.data, ¬ isQueryBreaker c)
    ∧ (columnQuery schemaName).data.count singleQuote = 2
    ∧ (fkQuery schemaName).data.count singleQuote = 4
    ∧ ∀ (conn : Conn) (order : List String),
        ∀ q ∈ (fetchSchemaConnected conn order schemaName).queries,
          q = columnQuery schemaName ∨ q = fkQuery schemaName := by
  have hclean : ∀ c ∈ schemaName.data, ¬ isQueryBreaker c := fun c hc =>
    not_isQueryBreaker_of_ident c (((schemaValidRegex_iff schemaName).1 hname).2 c hc)
  have hcount : schemaName.data.count singleQuote = 0 := by
    rw [List.count_eq_zero]
    intro hmem
    exact hclean _ hmem (Or.inl rfl)
  refine ⟨?_, ?_, hclean, ?_, ?_, fun conn order => fetchSchemaConnected_queries_mem conn order _⟩
  · apply String.ext
    simp only [columnQuery, String.data_append]
    simp
  · apply String.ext
    simp only [fkQuery, String.data_append]
    simp
  · simp only [columnQuery, String.data_append, List.count_append, hcount]
    decide
  · simp only [fkQuery, String.data_append, List.count_append, hcount]
    decide

/-- C16, at the schema name `public`. -/
theorem query_texts_of_accepted_name_witness :
    (∀ c ∈ "public".data, ¬ isQueryBreaker c)
    ∧ (columnQuery "public").data.count singleQuote = 2
    ∧ (fkQuery "public").data.count singleQuote = 4 :=
  ⟨(query_texts_of_accepted_name "public" (by decide)).2.2.1,
   (query_texts_of_accepted_name "public" (by decide)).2.2.2.1,
   (query_texts_of_accepted_name "public" (by decide)).2.2.2.2.1⟩

/-! ## The failure message of the foreign-key loop -/

theorem resolveRelations_append_panic (im : GoMap table_col_index) (pre post : List FkRow)
    (fk : FkRow) (acc : List relation) (msg : String)
    (hpre : ∀ x ∈ pre, ∃ r, resolveRelation im x = .ok r)
    (hfk : resolveRelation im fk = .error msg) :
    resolveRelations im (pre ++ fk :: post) acc = .panic msg := by
  induction pre generalizing acc with
  | nil => simp [resolveRelations, hfk]
  | cons x rest ih =>
    obtain ⟨r, hr⟩ := hpre x (by simp)
    simp only [List.cons_append, resolveRelations, hr]
    exact ih _ (fun y hy => hpre y (by simp [hy]))

theorem buildSchema_append_panic (order : List String) (rows : List ColumnRow)
    (pre post : List FkRow) (fk : FkRow) (msg : String)
    (hord : IsRangeOrder (groupRows rows) order)
    (hpre : ∀ x ∈ pre, namesPresent rows x)
    (hfk : resolveRelation (buildIndex (groupRows rows) order).index_map fk = .error msg) :
    buildSchema order rows (pre ++ fk :: post) = .panic msg := by
  have := resolveRelations_append_panic (buildIndex (groupRows rows) order).index_map pre post
    fk [] msg (fun x hx => by
      obtain ⟨r, hr, -⟩ := resolveRelation_ok rows order hord x (hpre x hx)
      exact ⟨r, hr⟩) hfk
  simp only [buildSchema, this]

/-- The lookups of one end of a foreign-key row under a range order. -/
theorem lookup_end (order : List String) (rows : List ColumnRow)
    (hord : IsRangeOrder (groupRows rows) order) (t c : String) :
    (¬ hasTable rows t → mapGet (buildIndex (groupRows rows) order).index_map t = none)
    ∧ (hasTable rows t → ∃ idx, mapGet (buildIndex (groupRows rows) order).index_map t = some idx
        ∧ (¬ hasColumn rows t c → mapGet idx.columns c = none)
        ∧ (hasColumn rows t c → ∃ ci, mapGet idx.columns c = some ci)) := by
  refine ⟨buildIndex_lookup_none rows order t, ?_⟩
  intro hT
  obtain ⟨j, hj, -⟩ := buildIndex_get rows order hord t hT
  refine ⟨_, hj, ?_, ?_⟩
  · intro hc
    exact mapGet_columnIndex_eq_none _ _ (fun hm => hc ((mem_map_name_columnsOf rows t c).1 hm))
  · intro hc
    obtain ⟨ci, hci, -⟩ := mapGet_columnIndex_mem _ _ ((mem_map_name_columnsOf rows t c).2 hc)
    exact ⟨ci, hci⟩

/-- C18: when a table name of a foreign-key row resolves but its column name
is not a column of that table, the failure message of the builder is
`can't find table name: ` followed by that table name, `fromTable` or
`toTable` as the case may be: it is the very message of a missing table, and
the column name is no part of it, the message is the same whatever the
missing column is called. The row is the first row of the list that does not
resolve. -/
theorem missing_column_message (order : List String) (rows : List ColumnRow)
    (pre post : List FkRow) (fk : FkRow)
    (hord : IsRangeOrder (groupRows rows) order)
    (hpre : ∀ x ∈ pre, namesPresent rows x) :
    (hasTable rows fk.fromTable → ¬ hasColumn rows fk.fromTable fk.fromColumn →
      buildSchema order rows (pre ++ fk :: post)
        = .panic ("can't find table name: " ++ fk.fromTable))
    ∧ (¬ hasTable rows fk.fromTable →
      buildSchema order rows (pre ++ fk :: post)
        = .panic ("can't find table name: " ++ fk.fromTable))
    ∧ (hasColumn rows fk.fromTable fk.fromColumn → hasTable rows fk.toTable →
      ¬ hasColumn rows fk.toTable fk.toColumn →
      buildSchema order rows (pre ++ fk :: post)
        = .panic ("can't find table name: " ++ fk.toTable))
    ∧ (hasColumn rows fk.fromTable fk.fromColumn → ¬ hasTable rows fk.toTable →
      buildSchema order rows (pre ++ fk :: post)
        = .panic ("can't find table name: " ++ fk.toTable))
    ∧ (∀ other : String, hasTable rows fk.fromTable →
      ¬ hasColumn rows fk.fromTable fk.fromColumn → ¬ hasColumn rows fk.fromTable other →
      buildSchema order rows (pre ++ { fk with fromColumn := other } :: post)
        = buildSchema order rows (pre ++ fk :: post))
    ∧ (∀ other : String, hasColumn rows fk.fromTable fk.fromColumn → hasTable rows fk.toTable →
      ¬ hasColumn rows fk.toTable fk.toColumn → ¬ hasColumn rows fk.toTable other →
      buildSchema order rows (pre ++ { fk with toColumn := other } :: post)
        = buildSchema order rows (pre ++ fk :: post)) := by
  have hfromT : ∀ c, hasColumn rows fk.fromTable c → hasTable rows fk.fromTable := by
    rintro c ⟨r, hr, ht, -⟩
    exact ⟨r, hr, ht⟩
  -- the message when the from side resolves to a table without the column
  have hfrom : ∀ x : FkRow, x.fromTable = fk.fromTable → hasTable rows fk.fromTable →
      ¬ hasColumn rows fk.fromTable x.fromColumn →
      buildSchema order rows (pre ++ x :: post)
        = .panic ("can't find table name: " ++ fk.fromTable) := by
    intro x hx hT hC
    obtain ⟨-, fsome⟩ := lookup_end order rows hord fk.fromTable x.fromColumn
    obtain ⟨idx, hidx, hcn, -⟩ := fsome hT
    apply buildSchema_append_panic order rows pre post x _ hord hpre
    simp only [resolveRelation, hx, hidx, hcn hC]
  -- the message when the from side resolves and the to side lacks the column
  have hto : ∀ x : FkRow, x.fromTable = fk.fromTable → x.toTable = fk.toTable →
      hasColumn rows fk.fromTable x.fromColumn → hasTable rows fk.toTable →
      ¬ hasColumn rows fk.toTable x.toColumn →
      buildSchema order rows (pre ++ x :: post)
        = .panic ("can't find table name: " ++ fk.toTable) := by
    intro x hx hx2 hC hT2 hC2
    obtain ⟨-, fsome⟩ := lookup_end order rows hord fk.fromTable x.fromColumn
    obtain ⟨-, tsome⟩ := lookup_end order rows hord fk.toTable x.toColumn
    obtain ⟨idx, hidx, -, hcs⟩ := fsome (hfromT _ hC)
    obtain ⟨ci, hci⟩ := hcs hC
    obtain ⟨idx2, hidx2, hcn2, -⟩ := tsome hT2
    apply buildSchema_append_panic order rows pre post x _ hord hpre
    simp only [resolveRelation, hx, hx2, hidx, hci, hidx2, hcn2 hC2]
  obtain ⟨fnone, fsome⟩ := lookup_end order rows hord fk.fromTable fk.fromColumn
  obtain ⟨tnone, -⟩ := lookup_end order rows hord fk.toTable fk.toColumn
  refine ⟨fun hT hC => hfrom fk rfl hT hC, ?_, fun hC hT2 hC2 => hto fk rfl rfl hC hT2 hC2, ?_,
    ?_, ?_⟩
  · intro hT
    apply buildSchema_append_panic order rows pre post fk _ hord hpre
    simp only [resolveRelation, fnone hT]
  · intro hC hT2
    obtain ⟨idx, hidx, -, hcs⟩ := fsome (hfromT _ hC)
    obtain ⟨ci, hci⟩ := hcs hC
    apply buildSchema_append_panic order rows pre post fk _ hord hpre
    simp only [resolveRelation, hidx, hci, tnone hT2]
  · intro other hT hC hother
    rw [hfrom fk rfl hT hC, hfrom { fk with fromColumn := other } rfl hT hother]
  · intro other hC hT2 hC2 hother
    rw [hto fk rfl rfl hC hT2 hC2, hto { fk with toColumn := other } rfl rfl hC hT2 hother]

/-- C18, at the example rows with a foreign key from the missing column
`orders.nope`: the message names the table `orders`, as it does for the
missing column `orders.zzz`. -/
theorem missing_column_message_witness :
    buildSchema ["users", "orders"] exampleColumnRows
        ([] ++ (⟨"fk", "orders", "nope", "users", "id"⟩ : FkRow) :: [])
      = .panic ("can't find table name: " ++ "orders")
    ∧ buildSchema ["users", "orders"] exampleColumnRows
        ([] ++ (⟨"fk", "orders", "zzz", "users", "id"⟩ : FkRow) :: [])
      = buildSchema ["users", "orders"] exampleColumnRows
        ([] ++ (⟨"fk", "orders", "nope", "users", "id"⟩ : FkRow) :: []) :=
  ⟨(missing_column_message ["users", "orders"] exampleColumnRows [] []
      ⟨"fk", "orders", "nope", "users", "id"⟩ (by decide) (by simp)).1 (by decide) (by decide),
   (missing_column_message ["users", "orders"] exampleColumnRows [] []
      ⟨"fk", "orders", "nope", "users", "id"⟩ (by decide) (by simp)).2.2.2.2.1 "zzz"
      (by decide) (by decide) (by decide)⟩

end SchemaView
